import Mathlib

/-!
Verification development for the `mkchangelog` changelog generator.

The definitions below are a shallow embedding of the program's core:
the conventional-commit message parser (`mkchangelog/parser.py`), the
version arithmetic (`get_next_version` in `mkchangelog/core.py` together
with `create_version` in `mkchangelog/utils.py`) and the changelog
generation pipeline (`ChangelogGenerator` in `mkchangelog/core.py`).

Python strings are embedded as `String`/`List Char`; `None`-able values
as `Option`; `raise ValueError` as `Except String`; ordered `dict`s as
association lists preserving insertion order; `set`s of strings as
duplicate-free lists in insertion order.  The wall clock
(`datetime.now`) is passed in explicitly as a `Nat` argument, and the
filesystem lookup of per-version header/footer files is passed in as an
oracle function, mirroring the "read optional text given a version
name" contract.
-/

deriving instance DecidableEq for Except

/-- Python `\s` (ASCII range), also the character set of `str.strip()`. -/
def pyIsSpace (c : Char) : Bool :=
  c = ' ' || c = '\t' || c = '\n' || c = '\r' || c = '\x0b' || c = '\x0c'

/-- Python regex `\w` (ASCII range): letters, digits and underscore. -/
def wordChar (c : Char) : Bool :=
  c.isAlphanum || c = '_'

/-- Drop trailing characters satisfying `p`. -/
def dropTrail (p : Char → Bool) (l : List Char) : List Char :=
  (l.reverse.dropWhile p).reverse

/-- Python `str.strip()` on a character list. -/
def trimChars (l : List Char) : List Char :=
  dropTrail pyIsSpace (l.dropWhile pyIsSpace)

/-- Python `str.strip()`. -/
def pyStrip (s : String) : String :=
  String.mk (trimChars s.data)

/-- Split a character list at every occurrence of `sep`, keeping empty
pieces, like Python `str.split(sep)` for a one-character separator. -/
def splitOnChar (sep : Char) : List Char → List (List Char)
  | [] => [[]]
  | c :: cs =>
    match splitOnChar sep cs with
    | [] => [[c]]
    | l :: ls => if c = sep then [] :: l :: ls else (c :: l) :: ls

/-- The lines of a message body, i.e. `splitOnChar '\n'`.  A regex
`^...$` match under `re.MULTILINE` whose pattern cannot cross a newline
is exactly a per-line match, which is how the reference-trailer regex is
evaluated below. -/
def splitLines (l : List Char) : List (List Char) :=
  splitOnChar '\n' l

/-- Strip a literal off the front of a character list (regex literal
matching). -/
def chopLit : List Char → List Char → Option (List Char)
  | [], s => some s
  | _ :: _, [] => none
  | p :: ps, c :: cs => if c = p then chopLit ps cs else none

/-- Parsed commit record: `LogLine` of `mkchangelog/models.py`, as
produced by `GitMessageParser.parse`.  `summary` and `commit_type` are
`Option`s because the `Initial commit` / `Merge ...` branches of the
commit regex leave those capture groups unset (`None` in Python). -/
structure LogLine where
  message : String
  summary : Option String
  commit_type : Option String
  scope : Option String
  references : List (String × List String)
  breaking_change : Bool
  breaking_changes : List String
deriving DecidableEq

/-- The configuration fields of `Settings` (`mkchangelog/config.py`)
consumed by the core.  Dictionaries keep their (insertion) order, which
matters: the commit-type regex alternation is built from the key order
of `commit_types`, and alias folding scans `reference_aliases` in
order. -/
structure Settings where
  changelog_title : String
  commit_types : List (String × String)
  commit_types_priorities : List (String × Nat)
  commit_type_default_priority : Nat
  reference_aliases : List (String × List String)
  ignore_revs : List String

/-- `DEFAULT_SETTINGS` of `mkchangelog/config.py` (the fields used by
the core). -/
def defaultSettings : Settings where
  changelog_title := "Changelog"
  commit_types :=
    [("build", "Build"), ("chore", "Chore"), ("ci", "CI"), ("dev", "Dev"),
     ("docs", "Docs"), ("feat", "Features"), ("fix", "Fixes"),
     ("perf", "Performance"), ("refactor", "Refactors"), ("style", "Style"),
     ("test", "Test"), ("translations", "Translations")]
  commit_types_priorities := [("feat", 40), ("fix", 30), ("refactor", 20)]
  commit_type_default_priority := 10
  reference_aliases :=
    [("Closes", ["Close", "Closed"]), ("Fixes", ["Fix", "Fixed"]),
     ("Resolves", ["Resolve", "Resolved"]), ("Relates", ["Relate", "Related"])]
  ignore_revs := []

/-!
### The commit-subject regex

`GitMessageParser.__init__` compiles

    (?P<initial_commit>^Initial commit\.?)
    |(?P<merge>^Merge [^\r\n]+)
    |(?P<type>^build|chore|...|translations|¯\_\(ツ\)_\/¯)
    (?:\((?P<scope>[\w\.-]+)\))?(?P<breaking>!)?: (?P<summary>.+)$

joined over the configured `commit_types` keys, and `parse` runs
`.search` on the first line of the message (which contains no newline,
so `^` under `re.MULTILINE` means position 0).  Note that in the Python
alternation the `^` anchor binds only to the FIRST type key; the
remaining keys and the shrug literal are unanchored.  The functions
below reproduce `re.search`: positions are tried left to right and at
each position the alternatives are tried in order, with backtracking
over the optional scope and `!` groups.
-/

/-- The capture groups of the commit-subject regex (`None` = group did
not participate; `breaking` records whether the `!` group matched). -/
structure CParts where
  ctype : Option String
  scope : Option String
  breaking : Bool
  summary : Option String
deriving DecidableEq

/-- Scope characters: the class `[\w\.-]`. -/
def scopeChar (c : Char) : Bool :=
  wordChar c || c = '.' || c = '-'

/-- `(?P<summary>.+)$` on the rest of the line: since the searched line
contains no newline this consumes the whole (non-empty) remainder. -/
def matchColonSummary : List Char → Option String
  | ':' :: ' ' :: s =>
    match s with
    | [] => none
    | c :: _ => if c = '\n' then none else some (String.mk (s.takeWhile (· ≠ '\n')))
  | _ => none

/-- `(?P<breaking>!)?: (?P<summary>.+)$` with regex backtracking: the
greedy optional `!` is tried first. -/
def tryBangColon (s : List Char) : Option (Bool × String) :=
  (match s with
   | '!' :: r => (matchColonSummary r).map (fun sm => (true, sm))
   | _ => none)
  <|> (matchColonSummary s).map (fun sm => (false, sm))

/-- `(?:\((?P<scope>[\w\.-]+)\))?`: the scope characters never include
`)`, so the greedy `+` is the maximal run. -/
def tryScope (s : List Char) : Option (String × List Char) :=
  match s with
  | '(' :: r =>
    let run := r.takeWhile scopeChar
    if run.isEmpty then none
    else
      match r.drop run.length with
      | ')' :: r2 => some (String.mk run, r2)
      | _ => none
  | _ => none

/-- Suffix of the type alternative: optional scope, optional `!`, then
`: ` and the summary, with backtracking from a matched scope to the
scopeless branch. -/
def tryAfterType (s : List Char) : Option (Option String × Bool × String) :=
  (match tryScope s with
   | some (sc, r) => (tryBangColon r).map (fun bs => (some sc, bs))
   | none => none)
  <|> (tryBangColon s).map (fun bs => (none, bs))

/-- One type alternative `(lit, anchored)`; `anchored` alternatives only
apply at position 0.  On a literal match the rest of the pattern runs;
on its failure the regex engine falls through to the next alternative. -/
def tryTypeAlts (alts : List (String × Bool)) (atStart : Bool) (s : List Char) :
    Option CParts :=
  match alts with
  | [] => none
  | (lit, anchored) :: rest =>
    if anchored && !atStart then tryTypeAlts rest atStart s
    else
      match chopLit lit.data s with
      | some r =>
        match tryAfterType r with
        | some (sc, b, sm) => some ⟨some lit, sc, b, some sm⟩
        | none => tryTypeAlts rest atStart s
      | none => tryTypeAlts rest atStart s

/-- `(?P<initial_commit>^Initial commit\.?)`: an (optional-dot) literal
with no trailing anchor, so any line starting with it matches, with all
other capture groups unset. -/
def tryInitial (s : List Char) : Option CParts :=
  match chopLit "Initial commit".data s with
  | some _ => some ⟨none, none, false, none⟩
  | none => none

/-- `(?P<merge>^Merge [^\r\n]+)`. -/
def tryMerge (s : List Char) : Option CParts :=
  match chopLit "Merge ".data s with
  | some (c :: _) => if c = '\r' || c = '\n' then none else some ⟨none, none, false, none⟩
  | _ => none

/-- The alternation, in source order, tried at one position. -/
def tryAt (alts : List (String × Bool)) (atStart : Bool) (s : List Char) :
    Option CParts :=
  if atStart then tryInitial s <|> tryMerge s <|> tryTypeAlts alts true s
  else tryTypeAlts alts false s

/-- `re.search` tail: try the alternation at positions 1, 2, ... -/
def searchTail (alts : List (String × Bool)) : List Char → Option CParts
  | [] => none
  | _ :: rest => tryAt alts false rest <|> searchTail alts rest

/-- `COMMIT_REGEXP.search` on a newline-free line: leftmost position
wins, alternatives in order at each position. -/
def commitSearch (alts : List (String × Bool)) (s : List Char) : Option CParts :=
  tryAt alts true s <|> searchTail alts s

/-- The alternative list generated by `"|".join(settings.commit_types.keys())`
inside the f-string `(?P<type>^{types}|¯\_\(ツ\)_\/¯)`: the `^` anchor
sticks to the first key only, and the final literal is the (escaped)
shrug token. -/
def mkTypeAlts (keys : List String) : List (String × Bool) :=
  (match keys with
   | [] => [("", true)]
   | k :: ks => (k, true) :: ks.map (fun k2 => (k2, false)))
  ++ [("¯_(ツ)_/¯", false)]

/-- The compiled `COMMIT_REGEXP` alternatives for given settings. -/
def commitAlts (settings : Settings) : List (String × Bool) :=
  mkTypeAlts (settings.commit_types.map Prod.fst)

/-!
### Reference trailers

`REF_REGEXP = ^\s*(?P<action>[\w -]+): (?P<refs>.*)$` under
`re.MULTILINE`, evaluated with `findall` over the message body.  Since
neither the action class nor `.` can cross a newline, every match lives
on a single line; `\s*` backtracks against the action class (whose only
whitespace member is the plain space), which the descending loop below
reproduces.  The functions take one newline-free line.
-/

/-- The action class `[\w -]`: word characters, space and hyphen. -/
def refActionChar (c : Char) : Bool :=
  wordChar c || c = ' ' || c = '-'

/-- Try `(?P<action>[\w -]+): (?P<refs>.*)$` at the current position of
a newline-free line: the greedy action run cannot contain `:`, so it is
the maximal run, after which the literal `: ` and the rest of the line
must follow. -/
def refTryAt (s : List Char) : Option (String × String) :=
  let run := s.takeWhile refActionChar
  if run.isEmpty then none
  else
    match s.drop run.length with
    | ':' :: ' ' :: rest => some (String.mk run, String.mk rest)
    | _ => none

/-- Backtracking of the greedy `\s*`: try the longest whitespace prefix
first, then shorter ones. -/
def refDesc (line : List Char) : Nat → Option (String × String)
  | 0 => refTryAt line
  | n + 1 => refTryAt (line.drop (n + 1)) <|> refDesc line n

/-- Match `REF_REGEXP` against one line. -/
def refMatchLine (line : List Char) : Option (String × String) :=
  refDesc line (line.takeWhile pyIsSpace).length

/-- `REF_REGEXP.findall(msg)`: the per-line matches, in order. -/
def refFindall (msg : String) : List (String × String) :=
  (splitLines msg.data).filterMap refMatchLine

/-- Alias folding of `_get_references_from_msg`:
`for main, aliases in ...: if action in aliases: action = main`. -/
def canonicalAction (aliases : List (String × List String)) (action : String) :
    String :=
  aliases.foldl (fun a e => if e.2.contains a then e.1 else a) action

/-- `refs[action].add(ref)` on an insertion-ordered dict of
insertion-ordered duplicate-free lists (Python `defaultdict(set)`). -/
def addRef (refs : List (String × List String)) (k id : String) :
    List (String × List String) :=
  if refs.any (fun p => p.1 == k) then
    refs.map (fun p => if p.1 == k then (p.1, if p.2.contains id then p.2 else p.2 ++ [id]) else p)
  else refs ++ [(k, [id])]

/-- The accumulation loop of `_get_references_from_msg`. -/
def buildRefs (aliases : List (String × List String))
    (found : List (String × String)) : List (String × List String) :=
  found.foldl
    (fun refs av =>
      let action := canonicalAction aliases av.1
      (splitOnChar ',' av.2.data).foldl
        (fun r idc => addRef r action (String.mk (trimChars idc))) refs)
    []

/-- `GitMessageParser._get_references_from_msg`: `None` when the regex
finds nothing, otherwise the accumulated dict. -/
def getReferencesFromMsg (aliases : List (String × List String)) (msg : String) :
    Option (List (String × List String)) :=
  let found := refFindall msg
  if found.isEmpty then none else some (buildRefs aliases found)

/-!
### The `BREAKING CHANGE:` block regex

`BREAKING_CHANGES_REGEXP = (?s)BREAKING CHANGE:(?P<breaking_change>.*?)(?:(?:\r*\n){2})`
with `findall`: after the literal, the lazy group grows one character at
a time until `\r*\n\r*\n` matches; scanning resumes after the match.
`GitMessageParser.parse` never invokes this extractor — it is embedded
here because `_get_breaking_changes` is part of the parser source.
-/

/-- `(?:\r*\n){2}`: greedy `\r*` runs then a newline, twice. -/
def bcTerminator (s : List Char) : Option (List Char) :=
  match (s.dropWhile (· = '\r')) with
  | '\n' :: r =>
    match (r.dropWhile (· = '\r')) with
    | '\n' :: r2 => some r2
    | _ => none
  | _ => none

/-- The lazy `.*?` before the terminator: smallest content first (the
terminator cannot match the empty tail, so the base case fails). -/
def bcLazy : List Char → Option (List Char × List Char)
  | [] => none
  | c :: cs =>
    match bcTerminator (c :: cs) with
    | some rest => some ([], rest)
    | none => (bcLazy cs).map (fun p => (c :: p.1, p.2))

/-- `findall` scan with explicit fuel (the scan advances at least one
character per step, so `length + 1` fuel suffices). -/
def bcScan : Nat → List Char → List (List Char)
  | 0, _ => []
  | fuel + 1, s =>
    match chopLit "BREAKING CHANGE:".data s with
    | some r =>
      match bcLazy r with
      | some (content, rest) => content :: bcScan fuel rest
      | none =>
        match s with
        | [] => []
        | _ :: t => bcScan fuel t
    | none =>
      match s with
      | [] => []
      | _ :: t => bcScan fuel t

/-- Python `str.strip("\n")`. -/
def stripNl (l : List Char) : List Char :=
  dropTrail (· = '\n') (l.dropWhile (· = '\n'))

/-- `textwrap.dedent`: whitespace-only (space/tab) lines are emptied,
the longest common space/tab margin of the content lines is computed
and removed from every line that carries it. -/
def spaceTab (c : Char) : Bool :=
  c = ' ' || c = '\t'

/-- Longest common prefix of two character lists. -/
def commonMargin : List Char → List Char → List Char
  | [], _ => []
  | _, [] => []
  | a :: as, b :: bs => if a = b then a :: commonMargin as bs else []

/-- `textwrap.dedent` on a character list. -/
def pyDedent (l : List Char) : List Char :=
  let lines := (splitLines l).map
    (fun ln => if !ln.isEmpty && ln.all spaceTab then [] else ln)
  let margins := (lines.filter (fun ln => !ln.isEmpty)).map
    (fun ln => ln.takeWhile spaceTab)
  let margin := match margins with
    | [] => []
    | m :: ms => ms.foldl commonMargin m
  let cut := lines.map (fun ln =>
    if chopLit margin ln = some (ln.drop margin.length) then ln.drop margin.length else ln)
  (cut.map (fun ln => ln ++ ['\n'])).flatten.dropLast

/-- `GitMessageParser._get_breaking_changes`. -/
def getBreakingChanges (message : String) : Option (List String) :=
  let found := bcScan (message.data.length + 1) message.data
  if found.isEmpty then none
  else some (found.map (fun c => String.mk (pyDedent (stripNl c))))

/-!
### `GitMessageParser.parse`
-/

/-- The first line of the stripped message (`message.split("\n", 1)`). -/
def firstLineChars (msg : String) : List Char :=
  (trimChars msg.data).takeWhile (· ≠ '\n')

/-- The body part of `message.split("\n", 1)` (empty when the message
is a single line). -/
def bodyChars (msg : String) : List Char :=
  let m := trimChars msg.data
  if m.contains '\n' then m.drop ((m.takeWhile (· ≠ '\n')).length + 1) else []

/-- `GitMessageParser.parse`: strip the message, split off the first
line, run the commit regex on it (raising `ValueError` on no match),
collect reference trailers from the body, and take the breaking
descriptions from the `"BREAKING CHANGE"` pseudo-action of the
reference dict. -/
def parse (settings : Settings) (message : String) : Except String LogLine :=
  let msg := trimChars message.data
  let first_line := msg.takeWhile (· ≠ '\n')
  let body : List Char :=
    if msg.contains '\n' then msg.drop (first_line.length + 1) else []
  match commitSearch (commitAlts settings) first_line with
  | none => .error ("Invalid commit " ++ String.mk first_line)
  | some parts =>
    let references :=
      (getReferencesFromMsg settings.reference_aliases (String.mk body)).getD []
    let breaking_changes := (references.lookup "BREAKING CHANGE").getD []
    let breaking_change := !breaking_changes.isEmpty || parts.breaking
    .ok
      { message := String.mk msg
        summary := parts.summary
        commit_type := parts.ctype
        scope := parts.scope
        references := references
        breaking_change := breaking_change
        breaking_changes := breaking_changes }

/-!
### Version arithmetic

`create_version` (`mkchangelog/utils.py`) slices the tag prefix length
off and parses the remainder with
`semver.Version.parse(..., optional_minor_and_patch=True)`.  The
embedding covers the numeric core `major[.minor[.patch]]` of the semver
grammar (numeric identifiers without leading zeros, missing minor/patch
defaulting to 0); prerelease/build suffixes make the embedded parser
fail, so claims quantify over plain numeric versions.
-/

structure SemVer where
  major : Nat
  minor : Nat
  patch : Nat
deriving DecidableEq

/-- One numeric identifier: `0|[1-9]\d*`. -/
def parseNumId (l : List Char) : Option Nat :=
  match l with
  | [] => none
  | c :: cs =>
    if (c :: cs).all Char.isDigit && (c ≠ '0' || cs.isEmpty) then
      some ((c :: cs).foldl (fun n d => 10 * n + (d.toNat - 48)) 0)
    else none

/-- `semver.Version.parse(s, optional_minor_and_patch=True)` on the
numeric core. -/
def parseSemVer (s : String) : Option SemVer :=
  match (splitOnChar '.' s.data).map parseNumId with
  | [some a] => some ⟨a, 0, 0⟩
  | [some a, some b] => some ⟨a, b, 0⟩
  | [some a, some b, some c] => some ⟨a, b, c⟩
  | _ => none

/-- `create_version(prefix, version)`: strip `len(prefix)` characters and
parse. -/
def create_version (tagPref version : String) : Option SemVer :=
  parseSemVer (String.mk (version.data.drop tagPref.length))

def SemVer.bump_major (v : SemVer) : SemVer := ⟨v.major + 1, 0, 0⟩
def SemVer.bump_minor (v : SemVer) : SemVer := ⟨v.major, v.minor + 1, 0⟩
def SemVer.bump_patch (v : SemVer) : SemVer := ⟨v.major, v.minor, v.patch + 1⟩

/-- `str(version)` for a numeric semver. -/
def semverStr (v : SemVer) : String :=
  toString v.major ++ "." ++ toString v.minor ++ "." ++ toString v.patch

/-- `Version` of `mkchangelog/models.py`; the date is the abstract clock
value.  -/
structure Version where
  name : String
  date : Option Nat
  semver : Option SemVer
deriving DecidableEq

/-- The tally of `get_next_version`: the counter key `"breaking_changes"`
is bumped once per commit with `breaking_change` set, and (sharing the
same dict slot) once per commit whose own `commit_type` is the string
`"breaking_changes"`. -/
def breakingTally (commits : List LogLine) : Nat :=
  (commits.filter (fun c => c.breaking_change)).length
    + (commits.filter (fun c => c.commit_type == some "breaking_changes")).length

/-- `"feat" in types`: the counter has a key for every commit type seen. -/
def tallyHasType (commits : List LogLine) (t : String) : Bool :=
  commits.any (fun c => c.commit_type == some t)

/-- `get_next_version` of `mkchangelog/core.py`.  A current version that
does not parse raises (`.error`); otherwise the result is `none` exactly
when the bumped version compares equal to the current one. -/
def get_next_version (tagPref current_version : String) (commits : List LogLine)
    (now : Nat) : Except String (Option Version) :=
  match create_version tagPref current_version with
  | none => .error ("InvalidVersion " ++ current_version)
  | some v =>
    let next :=
      if breakingTally commits > 0 then v.bump_major
      else if tallyHasType commits "feat" then v.bump_minor
      else if tallyHasType commits "fix" then v.bump_patch
      else v
    if v = next then .ok none
    else .ok (some ⟨tagPref ++ semverStr next, some now, some next⟩)

/-!
### Stable sorting

Python's `sorted` is a stable sort; a stable insertion sort over a
boolean "key ≤ key" relation is extensionally identical.
-/

/-- Stable insert: `a` goes before the first element it is `le` to. -/
def insertStable (le : α → α → Bool) (a : α) : List α → List α
  | [] => [a]
  | b :: bs => if le a b then a :: b :: bs else b :: insertStable le a bs

/-- Stable insertion sort (Python `sorted` for a total preorder `le`). -/
def sortStable (le : α → α → Bool) : List α → List α
  | [] => []
  | a :: as => insertStable le a (sortStable le as)

/-- Lexicographic code-point comparison of character lists, Python's
string `<=`. -/
def charsLe : List Char → List Char → Bool
  | [], _ => true
  | _ :: _, [] => false
  | a :: as, b :: bs =>
    if a.toNat < b.toNat then true
    else if b.toNat < a.toNat then false
    else charsLe as bs

/-- Python string `<=`. -/
def strLe (a b : String) : Bool :=
  charsLe a.data b.data

/-!
### Grouping (`ChangelogGenerator.group_commits_by_type`)
-/

/-- The sort key `x.commit_type` used by `group_commits_by_type`.
Python compares the raw attribute, which raises `TypeError` as soon as a
`None` type meets the comparison, so the grouping functions are used
under the hypothesis that every line carries a type; `getD ""`
totalizes. -/
def typeKey (l : LogLine) : String :=
  l.commit_type.getD ""

/-- The within-group sort key `i.scope if i.scope else ""`. -/
def scopeKey (l : LogLine) : String :=
  l.scope.getD ""

/-- `itertools.groupby`: group runs of consecutive equal keys. -/
def groupRuns (key : α → String) : List α → List (String × List α)
  | [] => []
  | x :: xs =>
    match groupRuns key xs with
    | [] => [(key x, [x])]
    | (k, g) :: rest =>
      if key x = k then (k, x :: g) :: rest else (key x, [x]) :: (k, g) :: rest

/-- Insert into a Python dict: replace in place or append. -/
def dictUpsert (d : List (String × β)) (k : String) (v : β) : List (String × β) :=
  if d.any (fun p => p.1 == k) then
    d.map (fun p => if p.1 == k then (p.1, v) else p)
  else d ++ [(k, v)]

/-- A dict built from key/value pairs in order. -/
def dictOfList (l : List (String × β)) : List (String × β) :=
  l.foldl (fun d p => dictUpsert d p.1 p.2) []

/-- `settings.commit_types_priorities.get(t, commit_type_default_priority)`. -/
def typePriority (settings : Settings) (t : String) : Nat :=
  (settings.commit_types_priorities.lookup t).getD settings.commit_type_default_priority

/-- `ChangelogGenerator.group_commits_by_type`: sort by type, group runs,
sort each group by scope, then reorder the groups by priority,
descending (Python's `sorted(..., reverse=True)` is stable, matched here
by a stable sort under the flipped relation). -/
def group_commits_by_type (settings : Settings) (commits : List LogLine) :
    List (String × List LogLine) :=
  let grouped := dictOfList
    ((groupRuns typeKey (sortStable (fun a b => strLe (typeKey a) (typeKey b)) commits)).map
      (fun p => (p.1, sortStable (fun a b => strLe (scopeKey a) (scopeKey b)) p.2)))
  let sortedKeys := sortStable
    (fun a b => typePriority settings b ≤ typePriority settings a)
    (grouped.map Prod.fst)
  sortedKeys.filterMap (fun k => (grouped.lookup k).map (fun g => (k, g)))

/-!
### `ChangelogGenerator`
-/

/-- `LogProviderOptions` of `mkchangelog/providers.py`. -/
structure LogProviderOptions where
  commit_limit : Option Nat
  rev : Option String
  ignore_revs : List String

/-- `ChangelogGenerator.__init__`: the log providers, versions provider
and per-version header/footer files are the external collaborators,
embedded as functions and data.  `headerFile`/`footerFile` return the
raw file content of `.mkchangelog.d/versions/<name>/header|footer`
when that file exists. -/
structure Generator where
  settings : Settings
  log_providers : List (LogProviderOptions → List String)
  versions_provider : List Version
  log_filters : List (List LogLine → List LogLine)
  headerFile : String → Option String
  footerFile : String → Option String

/-- The parsing loop of `ChangelogGenerator.get_loglines`: parse each
message, dropping failures unless `strict`, where the first failure
propagates. -/
def parseLoop (settings : Settings) (strict : Bool) :
    List String → Except String (List LogLine)
  | [] => .ok []
  | m :: ms =>
    match parse settings m with
    | .ok l => (parseLoop settings strict ms).map (fun ls => l :: ls)
    | .error e => if strict then .error e else parseLoop settings strict ms

/-- `ChangelogGenerator.get_loglines`: the parsing loop followed by the
registered post-parse filters (a propagating failure skips the filter
phase, as the Python exception does). -/
def get_loglines (gen : Generator) (commits : List String) (strict : Bool) :
    Except String (List LogLine) :=
  (parseLoop gen.settings strict commits).map
    (fun lines => gen.log_filters.foldl (fun ls f => f ls) lines)

/-- `ChangelogGenerator.get_log_messages`: concatenate the providers'
logs. -/
def get_log_messages (gen : Generator) (commit_limit : Option Nat)
    (rev : Option String) : List String :=
  gen.log_providers.flatMap
    (fun p => p ⟨commit_limit, rev, gen.settings.ignore_revs⟩)

/-- The parsed (pre-type-filter) lines of a section build: the provider
messages for the revision range, parsed non-strictly. -/
def sectionParsed (gen : Generator) (commit_limit : Option Nat) (rev : String) :
    List LogLine :=
  match get_loglines gen (get_log_messages gen commit_limit (some rev)) false with
  | .ok lines => lines
  | .error _ => []

/-- The `commit_types` filter of `get_changelog_section`: applied only
when the filter is a non-empty list (Python truthiness), keeping lines
whose type is listed, or everything when `"all"` is listed. -/
def applyTypeFilter (commit_types : Option (List String)) (lines : List LogLine) :
    List LogLine :=
  match commit_types with
  | none => lines
  | some cts =>
    if cts.isEmpty then lines
    else lines.filter
      (fun line =>
        (match line.commit_type with
         | some t => cts.contains t
         | none => false)
        || cts.contains "all")

/-- `settings.commit_types.get(t, t.capitalize())`; Python `capitalize`
uppercases the first character and lowercases the rest. -/
def pyCapitalize (s : String) : String :=
  match s.data with
  | [] => ""
  | c :: cs => String.mk (c.toUpper :: cs.map Char.toLower)

def typeName (settings : Settings) (t : String) : String :=
  (settings.commit_types.lookup t).getD (pyCapitalize t)

/-- `ChangelogSection` of `mkchangelog/models.py`. -/
structure ChangelogSection where
  version : Version
  changes : List (String × List LogLine)
  reverts : List LogLine
  breaking_changes : List LogLine
  header : String
  footer : String
deriving DecidableEq

structure Changelog where
  title : String
  sections : List ChangelogSection
deriving DecidableEq

/-- `ChangelogGenerator.get_changelog_section`.  Note the order of
operations around the type filter: `breaking_changes` is captured from
the parsed lines BEFORE the filter, `reverts` AFTER it, and when no line
survives the filter the early return discards both. -/
def get_changelog_section (gen : Generator) (from_version to_version : Option Version)
    (commit_types : Option (List String)) (commit_limit : Option Nat) (now : Nat) :
    ChangelogSection :=
  let fv := from_version.getD ⟨"HEAD", some now, none⟩
  let rev := match to_version with
    | some tv => fv.name ++ "..." ++ tv.name
    | none => fv.name
  let log_lines := sectionParsed gen commit_limit rev
  let breaking_changes := log_lines.filter (fun line => line.breaking_change)
  let log_lines := applyTypeFilter commit_types log_lines
  let reverts := log_lines.filter (fun line => line.commit_type == some "revert")
  let header := ((gen.headerFile fv.name).map pyStrip).getD ""
  let footer := ((gen.footerFile fv.name).map pyStrip).getD ""
  if log_lines.isEmpty then
    ⟨fv, [], [], [], header, footer⟩
  else
    ⟨fv,
     dictOfList ((group_commits_by_type gen.settings log_lines).map
       (fun p => (typeName gen.settings p.1, p.2))),
     reverts, breaking_changes, header, footer⟩

/-- The `while len(versions) > 1` loop of `get_changelog` followed by
the final unbounded build. -/
def buildPairs (gen : Generator) (commit_types : Option (List String))
    (commit_limit : Option Nat) (now : Nat) : List Version → List ChangelogSection
  | [] => []
  | [v] => [get_changelog_section gen (some v) none commit_types commit_limit now]
  | v1 :: v2 :: rest =>
    get_changelog_section gen (some v1) (some v2) commit_types commit_limit now
      :: buildPairs gen commit_types commit_limit now (v2 :: rest)

/-- The assembled version sequence of `get_changelog`: the synthesized
`HEAD` marker (when `unreleased`) followed by the provider's versions. -/
def assembledVersions (gen : Generator) (unreleased : Bool) (now : Nat) :
    List Version :=
  (if unreleased then [⟨"HEAD", some now, none⟩] else []) ++ gen.versions_provider

/-- `ChangelogGenerator.get_changelog`.  The zero- and one-version cases
return early: the one-version build is issued WITHOUT the caller's
`commit_limit`, and both early returns skip the `HEAD` rename and the
`hide_empty_releases` filtering that the multi-version path applies. -/
def get_changelog (gen : Generator) (title : Option String)
    (commit_types : Option (List String)) (unreleased : Bool)
    (unreleased_version : String) (hide_empty_releases : Bool)
    (commit_limit : Option Nat) (now : Nat) : Changelog :=
  let t := title.getD gen.settings.changelog_title
  match assembledVersions gen unreleased now with
  | [] => ⟨t, []⟩
  | [v] => ⟨t, [get_changelog_section gen (some v) none commit_types none now]⟩
  | v1 :: v2 :: rest =>
    let sections := buildPairs gen commit_types commit_limit now (v1 :: v2 :: rest)
    let sections := sections.map
      (fun s =>
        if s.version.name = "HEAD" then
          { s with version := { s.version with name := unreleased_version } }
        else s)
    let sections :=
      if hide_empty_releases then sections.filter (fun s => !s.changes.isEmpty)
      else sections
    ⟨t, sections⟩

/-!
### Lemmas: stable sort, grouping, dictionaries
-/

theorem insertStable_perm (le : α → α → Bool) (a : α) (l : List α) :
    (insertStable le a l).Perm (a :: l) := by
  induction l with
  | nil => simp [insertStable]
  | cons b bs ih =>
    simp only [insertStable]
    split
    · exact List.Perm.refl _
    · exact ((ih.cons b).trans (List.Perm.swap a b bs))

theorem sortStable_perm (le : α → α → Bool) (l : List α) :
    (sortStable le l).Perm l := by
  induction l with
  | nil => simp [sortStable]
  | cons a as ih =>
    exact (insertStable_perm le a (sortStable le as)).trans (ih.cons a)

theorem insertStable_pairwise (le : α → α → Bool)
    (htot : ∀ a b, le a b = true ∨ le b a = true)
    (htr : ∀ a b c, le a b = true → le b c = true → le a c = true)
    (a : α) (l : List α) (h : l.Pairwise (fun x y => le x y = true)) :
    (insertStable le a l).Pairwise (fun x y => le x y = true) := by
  induction l with
  | nil => simp [insertStable]
  | cons b bs ih =>
    cases h with
    | cons hb hbs =>
      by_cases hab : le a b = true
      · simp only [insertStable, hab, if_true]
        refine List.Pairwise.cons ?_ (List.Pairwise.cons hb hbs)
        intro x hx
        rcases List.mem_cons.mp hx with rfl | hx2
        · exact hab
        · exact htr a b x hab (hb x hx2)
      · simp only [insertStable, hab, if_false]
        refine List.Pairwise.cons ?_ (ih hbs)
        intro x hx
        rcases List.mem_cons.mp ((insertStable_perm le a bs).mem_iff.mp hx) with rfl | hx2
        · rcases htot x b with h1 | h1
          · exact absurd h1 hab
          · exact h1
        · exact hb x hx2

theorem sortStable_pairwise (le : α → α → Bool)
    (htot : ∀ a b, le a b = true ∨ le b a = true)
    (htr : ∀ a b c, le a b = true → le b c = true → le a c = true)
    (l : List α) :
    (sortStable le l).Pairwise (fun x y => le x y = true) := by
  induction l with
  | nil => simp [sortStable]
  | cons a as ih => exact insertStable_pairwise le htot htr a _ ih

theorem charsLe_total (a b : List Char) : charsLe a b = true ∨ charsLe b a = true := by
  induction a generalizing b with
  | nil => left; simp [charsLe]
  | cons x xs ih =>
    cases b with
    | nil => right; simp [charsLe]
    | cons y ys =>
      simp only [charsLe]
      rcases Nat.lt_trichotomy x.toNat y.toNat with h | h | h
      · left; simp [h]
      · have h1 : ¬ x.toNat < y.toNat := by omega
        have h2 : ¬ y.toNat < x.toNat := by omega
        simpa [h1, h2] using ih ys
      · right; simp [h]

theorem charsLe_trans (a b c : List Char) (h1 : charsLe a b = true)
    (h2 : charsLe b c = true) : charsLe a c = true := by
  induction a generalizing b c with
  | nil => simp [charsLe]
  | cons x xs ih =>
    cases b with
    | nil => simp [charsLe] at h1
    | cons y ys =>
      cases c with
      | nil => simp [charsLe] at h2
      | cons z zs =>
        simp only [charsLe] at h1 h2 ⊢
        by_cases hxy : x.toNat < y.toNat <;> by_cases hyz : y.toNat < z.toNat
        · have hxz : x.toNat < z.toNat := by omega
          simp [hxz]
        · simp only [hxy, if_true] at h1
          by_cases hzy : z.toNat < y.toNat
          · simp [hzy, Nat.lt_asymm hzy] at h2
          · have hxz : x.toNat < z.toNat := by omega
            simp [hxz]
        · by_cases hyx : y.toNat < x.toNat
          · simp [hyx, Nat.lt_asymm hyx] at h1
          · have hxz : x.toNat < z.toNat := by omega
            simp [hxz]
        · by_cases hyx : y.toNat < x.toNat
          · simp [hyx, Nat.lt_asymm hyx] at h1
          · by_cases hzy : z.toNat < y.toNat
            · simp [hzy, Nat.lt_asymm hzy] at h2
            · have e1 : x.toNat = y.toNat := by omega
              have e2 : y.toNat = z.toNat := by omega
              have hxz1 : ¬ x.toNat < z.toNat := by omega
              have hxz2 : ¬ z.toNat < x.toNat := by omega
              simp only [hxy, hyx, hyz, hzy, if_false] at h1 h2
              simp only [hxz1, hxz2, if_false]
              have h1b : charsLe xs ys = true := by
                simpa [Nat.lt_irrefl] using h1
              have h2b : charsLe ys zs = true := by
                simpa [Nat.lt_irrefl] using h2
              exact ih ys zs h1b h2b

theorem strLe_total (a b : String) : strLe a b = true ∨ strLe b a = true :=
  charsLe_total a.data b.data

theorem strLe_trans (a b c : String) (h1 : strLe a b = true) (h2 : strLe b c = true) :
    strLe a c = true :=
  charsLe_trans a.data b.data c.data h1 h2

theorem groupRuns_key (key : α → String) (l : List α) :
    ∀ p ∈ groupRuns key l, ∀ x ∈ p.2, key x = p.1 := by
  induction l with
  | nil => simp [groupRuns]
  | cons a as ih =>
    simp only [groupRuns]
    cases hg : groupRuns key as with
    | nil =>
      intro p hp x hx
      simp only [List.mem_singleton] at hp
      subst hp
      simp only [List.mem_singleton] at hx
      subst hx
      rfl
    | cons q rest =>
      intro p hp x hx
      by_cases hk : key a = q.1
      · simp only [hk, if_true] at hp
        rcases List.mem_cons.mp hp with rfl | hp2
        · rcases List.mem_cons.mp hx with rfl | hx2
          · exact hk
          · exact ih (q.1, q.2) (by rw [hg]; exact List.mem_cons_self _ _) x hx2
        · exact ih p (by rw [hg]; exact List.mem_cons_of_mem _ hp2) x hx
      · simp only [hk, if_false] at hp
        rcases List.mem_cons.mp hp with rfl | hp2
        · simp only [List.mem_singleton] at hx
          subst hx
          rfl
        · exact ih p (by rw [hg]; exact hp2) x hx

theorem groupRuns_flatten (key : α → String) (l : List α) :
    ((groupRuns key l).map Prod.snd).flatten = l := by
  induction l with
  | nil => simp [groupRuns]
  | cons a as ih =>
    simp only [groupRuns]
    cases hg : groupRuns key as with
    | nil =>
      have ih2 : as = [] := by
        rw [hg] at ih
        simpa using ih.symm
      subst ih2
      simp
    | cons q rest =>
      rw [hg] at ih
      simp only [List.map_cons, List.flatten_cons] at ih
      by_cases hk : key a = q.1
      · simp only [hk, if_true, List.map_cons, List.flatten_cons]
        rw [List.cons_append, ih]
      · simp only [hk, if_false, List.map_cons, List.flatten_cons]
        simp [ih]

theorem char_toNat_inj (a b : Char) (h : a.toNat = b.toNat) : a = b := by
  cases a; cases b
  simp only [Char.toNat] at h
  congr 1
  exact UInt32.toNat.inj h

theorem charsLe_antisymm (a b : List Char) (h1 : charsLe a b = true)
    (h2 : charsLe b a = true) : a = b := by
  induction a generalizing b with
  | nil =>
    cases b with
    | nil => rfl
    | cons y ys => simp [charsLe] at h2
  | cons x xs ih =>
    cases b with
    | nil => simp [charsLe] at h1
    | cons y ys =>
      simp only [charsLe] at h1 h2
      by_cases hxy : x.toNat < y.toNat
      · simp [hxy, Nat.lt_asymm hxy] at h2
      · by_cases hyx : y.toNat < x.toNat
        · simp [hyx, Nat.lt_asymm hyx] at h1
        · have hx : x = y := char_toNat_inj x y (by omega)
          subst hx
          simp only [Nat.lt_irrefl, if_false] at h1 h2
          rw [ih ys h1 h2]

theorem strLe_antisymm (a b : String) (h1 : strLe a b = true)
    (h2 : strLe b a = true) : a = b := by
  cases a; cases b
  exact congrArg String.mk (charsLe_antisymm _ _ h1 h2)

theorem groupRuns_nonempty (key : α → String) (l : List α) :
    ∀ p ∈ groupRuns key l, p.2 ≠ [] := by
  induction l with
  | nil => simp [groupRuns]
  | cons a as ih =>
    simp only [groupRuns]
    cases hg : groupRuns key as with
    | nil =>
      intro p hp
      simp only [List.mem_singleton] at hp
      subst hp
      simp
    | cons q rest =>
      intro p hp
      by_cases hk : key a = q.1
      · simp only [hk, if_true] at hp
        rcases List.mem_cons.mp hp with rfl | hp2
        · simp
        · exact ih p (by rw [hg]; exact List.mem_cons_of_mem _ hp2)
      · simp only [hk, if_false] at hp
        rcases List.mem_cons.mp hp with rfl | hp2
        · simp
        · exact ih p (by rw [hg]; exact hp2)

theorem groupRuns_exists_mem (key : α → String) (l : List α) :
    ∀ p ∈ groupRuns key l, ∃ x ∈ l, key x = p.1 := by
  intro p hp
  have hne := groupRuns_nonempty key l p hp
  cases hx : p.2 with
  | nil => exact absurd hx hne
  | cons x g =>
    refine ⟨x, ?_, groupRuns_key key l p hp x (by rw [hx]; exact List.mem_cons_self _ _)⟩
    have : x ∈ ((groupRuns key l).map Prod.snd).flatten := by
      refine List.mem_flatten.mpr ⟨p.2, List.mem_map_of_mem _ hp, ?_⟩
      rw [hx]; exact List.mem_cons_self _ _
    rwa [groupRuns_flatten] at this

theorem groupRuns_keys_pairwise (key : α → String) (l : List α)
    (h : l.Pairwise (fun x y => strLe (key x) (key y) = true)) :
    ((groupRuns key l).map Prod.fst).Pairwise
      (fun a b => strLe a b = true ∧ a ≠ b) := by
  induction l with
  | nil => simp [groupRuns]
  | cons a as ih =>
    cases h with
    | cons ha has =>
      simp only [groupRuns]
      cases hg : groupRuns key as with
      | nil => simp
      | cons q rest =>
        have ihq := ih has
        rw [hg, List.map_cons] at ihq
        by_cases hk : key a = q.1
        · simpa [hk] using ihq
        · simp only [hk, if_false, List.map_cons]
          refine List.Pairwise.cons ?_ ihq
          intro k hkmem
          have hle : strLe (key a) k = true := by
            have hkm : k ∈ ((q :: rest).map Prod.fst) := by
              rw [List.map_cons]; exact hkmem
            obtain ⟨p, hp, rfl⟩ := List.mem_map.mp hkm
            obtain ⟨x, hx, hkx⟩ := groupRuns_exists_mem key as p (by rw [hg]; exact hp)
            rw [← hkx]
            exact ha x hx
          refine ⟨hle, ?_⟩
          intro hak
          rcases List.mem_cons.mp hkmem with rfl | hk2
          · exact hk hak
          · have hq1k : strLe q.1 k = true :=
              ((List.pairwise_cons.mp ihq).1 k hk2).1
            have hle2 : strLe (key a) q.1 = true := by
              obtain ⟨x, hx, hkx⟩ := groupRuns_exists_mem key as q
                (by rw [hg]; exact List.mem_cons_self _ _)
              rw [← hkx]
              exact ha x hx
            rw [hak] at hle2
            have hkq : k = q.1 := strLe_antisymm k q.1 hle2 hq1k
            exact hk (hak.trans hkq)

theorem lookup_mem {β : Type} (k : String) (l : List (String × β)) (v : β)
    (h : l.lookup k = some v) : (k, v) ∈ l := by
  induction l with
  | nil => simp [List.lookup_nil] at h
  | cons e es ih =>
    obtain ⟨ek, ev⟩ := e
    simp only [List.lookup] at h
    by_cases hk : k == ek
    · simp only [hk, if_true] at h
      cases h
      have hk2 : k = ek := by simpa using hk
      subst hk2
      exact List.mem_cons_self _ _
    · rw [Bool.of_not_eq_true hk] at h
      simp only [Bool.false_eq_true, if_false] at h
      exact List.mem_cons_of_mem _ (ih h)

theorem dictUpsert_notmem {β : Type} (d : List (String × β)) (k : String) (v : β)
    (h : k ∉ d.map Prod.fst) : dictUpsert d k v = d ++ [(k, v)] := by
  have hany : d.any (fun p => p.1 == k) = false := by
    rw [List.any_eq_false]
    intro p hp
    simp only [beq_iff_eq]
    intro hpk
    exact h (hpk ▸ List.mem_map_of_mem Prod.fst hp)
  simp [dictUpsert, hany]

theorem foldl_upsert_distinct {β : Type} (l : List (String × β))
    (acc : List (String × β))
    (hd : (l.map Prod.fst).Pairwise (fun a b => a ≠ b))
    (hdisj : ∀ k ∈ l.map Prod.fst, k ∉ acc.map Prod.fst) :
    l.foldl (fun d p => dictUpsert d p.1 p.2) acc = acc ++ l := by
  induction l generalizing acc with
  | nil => simp
  | cons e es ih =>
    rw [List.map_cons] at hd hdisj
    rcases List.pairwise_cons.mp hd with ⟨he, hes⟩
    simp only [List.foldl_cons]
    rw [dictUpsert_notmem acc e.1 e.2 (hdisj e.1 (List.mem_cons_self _ _))]
    rw [ih (acc ++ [(e.1, e.2)]) hes ?_]
    · simp
    · intro k hk
      rw [List.map_append]
      intro hmem
      rcases List.mem_append.mp hmem with hmem | hmem
      · exact hdisj k (List.mem_cons_of_mem _ hk) hmem
      · simp only [List.map_cons, List.map_nil, List.mem_singleton] at hmem
        obtain ⟨p, hp, rfl⟩ := List.mem_map.mp hk
        exact he p.1 (by simpa using List.mem_map_of_mem Prod.fst hp) hmem.symm

theorem dictOfList_distinct {β : Type} (l : List (String × β))
    (hd : (l.map Prod.fst).Pairwise (fun a b => a ≠ b)) :
    dictOfList l = l := by
  have := foldl_upsert_distinct l [] hd (by simp)
  simpa [dictOfList] using this

theorem lookup_of_mem_keys {β : Type} (k : String) (l : List (String × β))
    (h : k ∈ l.map Prod.fst) : ∃ v, l.lookup k = some v := by
  induction l with
  | nil => simp at h
  | cons e es ih =>
    obtain ⟨ek, ev⟩ := e
    by_cases hk : k = ek
    · subst hk
      exact ⟨ev, by simp [List.lookup]⟩
    · have hk2 : (k == ek) = false := by simpa using hk
      rw [List.map_cons] at h
      rcases List.mem_cons.mp h with rfl | h2
      · exact absurd rfl hk
      · obtain ⟨v, hv⟩ := ih h2
        exact ⟨v, by simp [List.lookup, hk2, hv]⟩

theorem lookup_of_mem_distinct {β : Type} (k : String) (v : β)
    (l : List (String × β)) (hd : (l.map Prod.fst).Pairwise (fun a b => a ≠ b))
    (h : (k, v) ∈ l) : l.lookup k = some v := by
  induction l with
  | nil => simp at h
  | cons e es ih =>
    obtain ⟨ek, ev⟩ := e
    rw [List.map_cons] at hd
    rcases List.pairwise_cons.mp hd with ⟨he, hes⟩
    rcases List.mem_cons.mp h with heq | h2
    · cases heq
      simp [List.lookup]
    · have hk : k ≠ ek := by
        intro hkk
        subst hkk
        exact he k (by simpa using List.mem_map_of_mem Prod.fst h2) rfl
      have hk2 : (k == ek) = false := by simpa using hk
      simp [List.lookup, hk2, ih hes h2]

theorem map_fst_filterMap_lookup {β : Type} (l l2 : List (String × β))
    (h2 : ∀ p ∈ l2, l.lookup p.1 = some p.2) :
    (l2.map Prod.fst).filterMap (fun k => (l.lookup k).map (fun g => (k, g))) = l2 := by
  induction l2 with
  | nil => rfl
  | cons e es ih =>
    have hih := ih (fun p hp => h2 p (List.mem_cons_of_mem _ hp))
    rw [List.map_cons, List.filterMap_cons, h2 e (List.mem_cons_self _ _)]
    simp [hih]

theorem filterMap_lookup_perm {β : Type} (l : List (String × β)) (ks : List String)
    (hd : (l.map Prod.fst).Pairwise (fun a b => a ≠ b))
    (hperm : ks.Perm (l.map Prod.fst)) :
    (ks.filterMap (fun k => (l.lookup k).map (fun g => (k, g)))).Perm l := by
  have h1 := hperm.filterMap (fun k => (l.lookup k).map (fun g => (k, g)))
  rw [map_fst_filterMap_lookup l l
    (fun p hp => lookup_of_mem_distinct p.1 p.2 l hd hp)] at h1
  exact h1

theorem filterMap_fst_sublist {β : Type} (ks : List String)
    (f : String → Option (String × β)) (hf : ∀ k p, f k = some p → p.1 = k) :
    ((ks.filterMap f).map Prod.fst).Sublist ks := by
  induction ks with
  | nil => simp
  | cons k ks ih =>
    rw [List.filterMap_cons]
    cases hfk : f k with
    | none => exact ih.cons k
    | some p =>
      rw [List.map_cons, hf k p hfk]
      exact ih.cons₂ k

theorem flatten_map_sort_perm (le : α → α → Bool) (runs : List (String × List α)) :
    ((runs.map (fun p => sortStable le p.2)).flatten).Perm
      ((runs.map Prod.snd).flatten) := by
  induction runs with
  | nil => simp
  | cons p ps ih =>
    simp only [List.map_cons, List.flatten_cons]
    exact (sortStable_perm le p.2).append ih

/-- The pieces of `group_commits_by_type settings commits`, named for the
proofs below. -/
theorem group_commits_by_type_eq (settings : Settings) (commits : List LogLine) :
    group_commits_by_type settings commits =
      (sortStable (fun a b => typePriority settings b ≤ typePriority settings a)
        ((dictOfList
          ((groupRuns typeKey
            (sortStable (fun a b => strLe (typeKey a) (typeKey b)) commits)).map
              (fun p => (p.1, sortStable (fun a b => strLe (scopeKey a) (scopeKey b)) p.2)))).map
            Prod.fst)).filterMap
        (fun k =>
          ((dictOfList
            ((groupRuns typeKey
              (sortStable (fun a b => strLe (typeKey a) (typeKey b)) commits)).map
                (fun p => (p.1, sortStable (fun a b => strLe (scopeKey a) (scopeKey b)) p.2)))).lookup
            k).map (fun g => (k, g))) := rfl

/-- C8: for every configuration and every list of typed parsed commits,
`group_commits_by_type` groups records by `change_type`, orders records
inside each group by scope ascending with an absent scope treated as the
empty string, orders the groups by configured priority descending with
unlisted types getting the default priority, and loses no record; the
display name used for the section keys is the configured one with a
capitalized fallback; determinism is immediate since the embedding is a
pure function of its inputs (the hypothesis mirrors Python, where a
record without a type would make the sort raise `TypeError`). -/
theorem group_commits_by_type_ordering (settings : Settings) (commits : List LogLine)
    (htyped : ∀ l ∈ commits, l.commit_type.isSome) :
    (∀ p ∈ group_commits_by_type settings commits, ∀ x ∈ p.2,
        x.commit_type = some p.1)
    ∧ (∀ p ∈ group_commits_by_type settings commits,
        p.2.Pairwise (fun a b => strLe (scopeKey a) (scopeKey b) = true))
    ∧ ((group_commits_by_type settings commits).map Prod.fst).Pairwise
        (fun a b => typePriority settings b ≤ typePriority settings a)
    ∧ (((group_commits_by_type settings commits).map Prod.snd).flatten).Perm commits
    ∧ (∀ k, (settings.commit_types.lookup k = none →
          typeName settings k = pyCapitalize k)
        ∧ ∀ d, settings.commit_types.lookup k = some d → typeName settings k = d) := by
  have tyTot : ∀ a b : LogLine,
      strLe (typeKey a) (typeKey b) = true ∨ strLe (typeKey b) (typeKey a) = true :=
    fun a b => strLe_total (typeKey a) (typeKey b)
  have tyTr : ∀ a b c : LogLine, strLe (typeKey a) (typeKey b) = true →
      strLe (typeKey b) (typeKey c) = true → strLe (typeKey a) (typeKey c) = true :=
    fun a b c => strLe_trans (typeKey a) (typeKey b) (typeKey c)
  have hsorted := sortStable_pairwise (fun a b => strLe (typeKey a) (typeKey b))
    tyTot tyTr commits
  set ts := sortStable (fun a b : LogLine => strLe (typeKey a) (typeKey b)) commits with hts
  set runs := groupRuns typeKey ts with hruns
  set runs2 := runs.map
    (fun p => (p.1, sortStable (fun a b => strLe (scopeKey a) (scopeKey b)) p.2)) with hruns2
  have hkeys2 : runs2.map Prod.fst = runs.map Prod.fst := by
    rw [hruns2, List.map_map]
    rfl
  have hkdist : (runs2.map Prod.fst).Pairwise (fun a b => a ≠ b) := by
    rw [hkeys2]
    exact (groupRuns_keys_pairwise typeKey ts hsorted).imp (fun h => h.2)
  have hgrouped : dictOfList runs2 = runs2 := dictOfList_distinct runs2 hkdist
  have hmain : group_commits_by_type settings commits =
      (sortStable (fun a b => typePriority settings b ≤ typePriority settings a)
        (runs2.map Prod.fst)).filterMap
        (fun k => (runs2.lookup k).map (fun g => (k, g))) := by
    rw [group_commits_by_type_eq]
    rw [← hts, ← hruns, ← hruns2, hgrouped]
  have hmemrun : ∀ p ∈ group_commits_by_type settings commits, p ∈ runs2 := by
    intro p hp
    rw [hmain] at hp
    obtain ⟨k, _, hk2⟩ := List.mem_filterMap.mp hp
    cases hl : runs2.lookup k with
    | none => rw [hl] at hk2; cases hk2
    | some g =>
      rw [hl] at hk2
      cases hk2
      exact lookup_mem k runs2 g hl
  have hmemcommits : ∀ p ∈ runs2, ∀ x ∈ p.2, x ∈ commits := by
    intro p hp x hx
    obtain ⟨q, hq, hpq⟩ := List.mem_map.mp hp
    have hx2 : x ∈ q.2 := by
      rw [← hpq] at hx
      exact (sortStable_perm (fun a b => strLe (scopeKey a) (scopeKey b)) q.2).mem_iff.mp hx
    have hxts : x ∈ ts := by
      have : x ∈ ((runs.map Prod.snd).flatten) :=
        List.mem_flatten.mpr ⟨q.2, List.mem_map_of_mem _ hq, hx2⟩
      rwa [hruns, groupRuns_flatten] at this
    exact (sortStable_perm _ commits).mem_iff.mp hxts
  refine ⟨?_, ?_, ?_, ?_, ?_⟩
  · intro p hp x hx
    obtain ⟨q, hq, hpq⟩ := List.mem_map.mp (hmemrun p hp)
    have hx2 : x ∈ q.2 := by
      apply (sortStable_perm (fun a b => strLe (scopeKey a) (scopeKey b)) q.2).mem_iff.mp
      rw [← hpq] at hx
      exact hx
    have hkey : typeKey x = p.1 := by
      rw [← hpq]
      exact groupRuns_key typeKey ts q hq x hx2
    have hsome := htyped x (hmemcommits p (hmemrun p hp) x hx)
    obtain ⟨t, ht⟩ := Option.isSome_iff_exists.mp hsome
    rw [ht]
    rw [← hkey, typeKey, ht]
    rfl
  · intro p hp
    obtain ⟨q, hq, hpq⟩ := List.mem_map.mp (hmemrun p hp)
    have : p.2 = sortStable (fun a b => strLe (scopeKey a) (scopeKey b)) q.2 := by
      rw [← hpq]
    rw [this]
    exact sortStable_pairwise _
      (fun a b => strLe_total (scopeKey a) (scopeKey b))
      (fun a b c => strLe_trans (scopeKey a) (scopeKey b) (scopeKey c)) q.2
  · have hsub : ((group_commits_by_type settings commits).map Prod.fst).Sublist
        (sortStable (fun a b => typePriority settings b ≤ typePriority settings a)
          (runs2.map Prod.fst)) := by
      rw [hmain]
      apply filterMap_fst_sublist
      intro k p hk
      cases hl : runs2.lookup k with
      | none => rw [hl] at hk; cases hk
      | some g => rw [hl] at hk; cases hk; rfl
    have hpw := sortStable_pairwise
      (fun a b : String => decide (typePriority settings b ≤ typePriority settings a))
      (fun a b => by
        rcases Nat.le_total (typePriority settings b) (typePriority settings a) with h | h
        · left; simpa using h
        · right; simpa using h)
      (fun a b c h1 h2 => by
        simp only [decide_eq_true_eq] at h1 h2 ⊢
        omega)
      (runs2.map Prod.fst)
    have hpw2 := hpw.imp (fun h => by simpa using h)
    have hsame : sortStable
        (fun a b : String => decide (typePriority settings b ≤ typePriority settings a))
        (runs2.map Prod.fst)
        = sortStable (fun a b => typePriority settings b ≤ typePriority settings a)
          (runs2.map Prod.fst) := rfl
    rw [hsame] at hpw2
    exact hpw2.sublist hsub
  · have hresperm : (group_commits_by_type settings commits).Perm runs2 := by
      rw [hmain]
      apply filterMap_lookup_perm runs2 _ hkdist
      exact sortStable_perm _ _
    have h1 := (hresperm.map Prod.snd).flatten
    have h2 : ((runs2.map Prod.snd).flatten).Perm commits := by
      have hb : runs2.map Prod.snd = runs.map
          (fun p => sortStable (fun a b => strLe (scopeKey a) (scopeKey b)) p.2) := by
        rw [hruns2, List.map_map]
        rfl
      rw [hb]
      refine (flatten_map_sort_perm _ runs).trans ?_
      rw [hruns, groupRuns_flatten]
      exact sortStable_perm _ commits
    exact h1.trans h2
  · intro k
    constructor
    · intro h
      simp [typeName, h]
    · intro d h
      simp [typeName, h]

/-- Concrete typed commits for instantiating the grouping theorem. -/
def c8commits : List LogLine :=
  [⟨"fix(zz): a", some "a", some "fix", some "zz", [], false, []⟩,
   ⟨"feat(b): c", some "c", some "feat", some "b", [], false, []⟩,
   ⟨"chore: d", some "d", some "chore", none, [], false, []⟩,
   ⟨"feat(a): e", some "e", some "feat", some "a", [], false, []⟩,
   ⟨"fix: f", some "f", some "fix", none, [], true, []⟩]

/-- Witness: the grouping theorem applied to a concrete mixed commit
list under the default settings. -/
theorem group_commits_by_type_ordering_witness :
    (∀ l ∈ c8commits, l.commit_type.isSome)
    ∧ ((∀ p ∈ group_commits_by_type defaultSettings c8commits, ∀ x ∈ p.2,
          x.commit_type = some p.1)
      ∧ (∀ p ∈ group_commits_by_type defaultSettings c8commits,
          p.2.Pairwise (fun a b => strLe (scopeKey a) (scopeKey b) = true))
      ∧ ((group_commits_by_type defaultSettings c8commits).map Prod.fst).Pairwise
          (fun a b => typePriority defaultSettings b ≤ typePriority defaultSettings a)
      ∧ (((group_commits_by_type defaultSettings c8commits).map Prod.snd).flatten).Perm
          c8commits
      ∧ (∀ k, (defaultSettings.commit_types.lookup k = none →
            typeName defaultSettings k = pyCapitalize k)
          ∧ ∀ d, defaultSettings.commit_types.lookup k = some d →
            typeName defaultSettings k = d)) :=
  ⟨by decide, group_commits_by_type_ordering defaultSettings c8commits (by decide)⟩

/-!
### C1: version bumping
-/

/-- C1: for every tag prefix, every current version whose prefix-stripped
remainder parses as a (numeric) semantic version, and every list of
parsed commits, `get_next_version` bumps major (resetting minor and
patch) when some commit is breaking, else minor (resetting patch) when
some commit has type `feat`, else patch when some commit has type `fix`,
else returns nothing — equivalently, returns nothing exactly when the
computed next version equals the current one — and a returned version is
named by concatenating the prefix with the new version string.  The
second hypothesis rules out the counter-key collision with the literal
type string `"breaking_changes"`, which no parsed commit can carry under
the default configuration. -/
theorem get_next_version_spec (tagPref cur : String) (commits : List LogLine)
    (now : Nat) (v : SemVer)
    (hv : create_version tagPref cur = some v)
    (hnb : ∀ c ∈ commits, c.commit_type ≠ some "breaking_changes") :
    get_next_version tagPref cur commits now =
      if ∃ c ∈ commits, c.breaking_change then
        .ok (some ⟨tagPref ++ semverStr ⟨v.major + 1, 0, 0⟩, some now,
          some ⟨v.major + 1, 0, 0⟩⟩)
      else if ∃ c ∈ commits, c.commit_type = some "feat" then
        .ok (some ⟨tagPref ++ semverStr ⟨v.major, v.minor + 1, 0⟩, some now,
          some ⟨v.major, v.minor + 1, 0⟩⟩)
      else if ∃ c ∈ commits, c.commit_type = some "fix" then
        .ok (some ⟨tagPref ++ semverStr ⟨v.major, v.minor, v.patch + 1⟩, some now,
          some ⟨v.major, v.minor, v.patch + 1⟩⟩)
      else .ok none := by
  have hcount : breakingTally commits =
      (commits.filter (fun c => c.breaking_change)).length := by
    have hnil : (commits.filter (fun c => c.commit_type == some "breaking_changes")) = [] := by
      rw [List.filter_eq_nil_iff]
      intro c hc
      simpa using hnb c hc
    rw [breakingTally, hnil]
    simp
  have hbrk : (breakingTally commits > 0) ↔ ∃ c ∈ commits, c.breaking_change := by
    rw [hcount]
    constructor
    · intro h
      by_contra hno
      push_neg at hno
      have hnil : commits.filter (fun c => c.breaking_change) = [] := by
        rw [List.filter_eq_nil_iff]
        intro c hc
        simpa using hno c hc
      rw [hnil] at h
      simp at h
    · rintro ⟨c, hc, hb⟩
      exact List.length_pos_of_mem (List.mem_filter.mpr ⟨hc, by simpa using hb⟩)
  have hfeat : (tallyHasType commits "feat" = true) ↔
      ∃ c ∈ commits, c.commit_type = some "feat" := by
    rw [tallyHasType, List.any_eq_true]
    constructor
    · rintro ⟨c, hc, h⟩; exact ⟨c, hc, by simpa using h⟩
    · rintro ⟨c, hc, h⟩; exact ⟨c, hc, by simpa using h⟩
  have hfix : (tallyHasType commits "fix" = true) ↔
      ∃ c ∈ commits, c.commit_type = some "fix" := by
    rw [tallyHasType, List.any_eq_true]
    constructor
    · rintro ⟨c, hc, h⟩; exact ⟨c, hc, by simpa using h⟩
    · rintro ⟨c, hc, h⟩; exact ⟨c, hc, by simpa using h⟩
  rw [get_next_version, hv]
  by_cases hb : ∃ c ∈ commits, c.breaking_change
  · have hb2 := hbrk.mpr hb
    have hne : ¬ v = v.bump_major := by
      cases v with
      | mk a b c =>
        intro h
        simp only [SemVer.bump_major, SemVer.mk.injEq] at h
        omega
    simp only [if_pos hb2, if_pos hb, if_neg hne]
    rfl
  · have hb2 : ¬ breakingTally commits > 0 := fun h => hb (hbrk.mp h)
    by_cases hf : ∃ c ∈ commits, c.commit_type = some "feat"
    · have hf2 := hfeat.mpr hf
      have hne : ¬ v = v.bump_minor := by
        cases v with
        | mk a b c =>
          intro h
          simp only [SemVer.bump_minor, SemVer.mk.injEq] at h
          omega
      simp only [if_neg hb2, if_neg hb, if_pos hf2, if_pos hf, if_neg hne]
      rfl
    · have hf2 : ¬ tallyHasType commits "feat" = true := fun h => hf (hfeat.mp h)
      by_cases hx : ∃ c ∈ commits, c.commit_type = some "fix"
      · have hx2 := hfix.mpr hx
        have hne : ¬ v = v.bump_patch := by
          cases v with
          | mk a b c =>
            intro h
            simp only [SemVer.bump_patch, SemVer.mk.injEq] at h
            omega
        simp only [if_neg hb2, if_neg hb, if_neg hf2, if_neg hf, if_pos hx2,
          if_pos hx, if_neg hne]
        rfl
      · have hx2 : ¬ tallyHasType commits "fix" = true := fun h => hx (hfix.mp h)
        simp only [if_neg hb2, if_neg hb, if_neg hf2, if_neg hf, if_neg hx2,
          if_neg hx, if_pos rfl]
        simp

/-- Concrete commit list for instantiating the version-bump theorem. -/
def c1commits : List LogLine :=
  [⟨"feat: nv", some "nv", some "feat", none, [], false, []⟩]

/-- Witness: the version-bump theorem applied to `v1.2.3` and one
feature commit. -/
theorem get_next_version_spec_witness :
    (create_version "v" "v1.2.3" = some ⟨1, 2, 3⟩
      ∧ ∀ c ∈ c1commits, c.commit_type ≠ some "breaking_changes")
    ∧ get_next_version "v" "v1.2.3" c1commits 0 =
      (if ∃ c ∈ c1commits, c.breaking_change then
        .ok (some ⟨"v" ++ semverStr ⟨1 + 1, 0, 0⟩, some 0, some ⟨1 + 1, 0, 0⟩⟩)
      else if ∃ c ∈ c1commits, c.commit_type = some "feat" then
        .ok (some ⟨"v" ++ semverStr ⟨1, 2 + 1, 0⟩, some 0, some ⟨1, 2 + 1, 0⟩⟩)
      else if ∃ c ∈ c1commits, c.commit_type = some "fix" then
        .ok (some ⟨"v" ++ semverStr ⟨1, 2, 3 + 1⟩, some 0, some ⟨1, 2, 3 + 1⟩⟩)
      else .ok none) :=
  ⟨⟨by decide, by decide⟩,
    get_next_version_spec "v" "v1.2.3" c1commits 0 ⟨1, 2, 3⟩ (by decide) (by decide)⟩

/-!
### C5: malformed commits are skipped, or propagate in strict mode
-/

theorem parseLoop_nonstrict (settings : Settings) (msgs : List String) :
    parseLoop settings false msgs =
      .ok (msgs.filterMap (fun m => (parse settings m).toOption)) := by
  induction msgs with
  | nil => rfl
  | cons m ms ih =>
    rw [parseLoop]
    cases h : parse settings m with
    | ok l =>
      rw [ih, List.filterMap_cons]
      simp only [h, Except.toOption]
      rfl
    | error e =>
      rw [ih, List.filterMap_cons]
      simp only [h, Except.toOption]
      rfl

theorem parseLoop_strict_error (settings : Settings) (pre : List String)
    (bad : String) (post : List String) (e : String)
    (hpre : ∀ m ∈ pre, (parse settings m).isOk)
    (hbad : parse settings bad = .error e) :
    parseLoop settings true (pre ++ bad :: post) = .error e := by
  induction pre with
  | nil =>
    rw [List.nil_append, parseLoop, hbad]
    rfl
  | cons m ms ih =>
    rw [List.cons_append, parseLoop]
    cases h : parse settings m with
    | ok l =>
      rw [ih (fun x hx => hpre x (List.mem_cons_of_mem _ hx))]
      rfl
    | error e2 =>
      have := hpre m (List.mem_cons_self _ _)
      rw [h] at this
      cases this

/-- C5: with no post-parse filters registered, non-strict `get_loglines`
returns exactly the successfully parsed records in input order, silently
dropping messages whose first line fails the grammar; in strict mode the
first parse failure propagates. -/
theorem get_loglines_spec (gen : Generator) (hfil : gen.log_filters = []) :
    (∀ msgs : List String,
      get_loglines gen msgs false =
        .ok (msgs.filterMap (fun m => (parse gen.settings m).toOption)))
    ∧ (∀ pre bad post e, (∀ m ∈ pre, (parse gen.settings m).isOk) →
        parse gen.settings bad = .error e →
        get_loglines gen (pre ++ bad :: post) true = .error e) := by
  constructor
  · intro msgs
    rw [get_loglines, parseLoop_nonstrict, hfil]
    rfl
  · intro pre bad post e hpre hbad
    rw [get_loglines, parseLoop_strict_error gen.settings pre bad post e hpre hbad]
    rfl

/-- A generator over fixed in-memory collaborators, used to instantiate
the pipeline theorems. -/
def plainGen : Generator where
  settings := defaultSettings
  log_providers := []
  versions_provider := []
  log_filters := []
  headerFile := fun _ => none
  footerFile := fun _ => none

/-- Witness: `get_loglines` on a mixed well-formed/malformed message
list, in both modes. -/
theorem get_loglines_spec_witness :
    plainGen.log_filters = []
    ∧ ((∀ msgs : List String,
        get_loglines plainGen msgs false =
          .ok (msgs.filterMap (fun m => (parse plainGen.settings m).toOption)))
      ∧ (∀ pre bad post e, (∀ m ∈ pre, (parse plainGen.settings m).isOk) →
          parse plainGen.settings bad = .error e →
          get_loglines plainGen (pre ++ bad :: post) true = .error e)) :=
  ⟨rfl, get_loglines_spec plainGen rfl⟩

/-!
### C6: the unanchored type alternation accepts unrecognized leading words
-/

/-- C6 (code bug): the spec requires a first line whose leading word is
not a configured type to fail to parse, but the compiled alternation
anchors `^` only to the first configured key (`build`), so any other
configured key is matched anywhere in the line: `"xfeat: oops"` parses
with type `feat`, while the same line built on the anchored first key
(`"xbuild: oops"`) does fail. -/
theorem unanchored_type_accepts_infix :
    parse defaultSettings "xfeat: oops" =
      .ok ⟨"xfeat: oops", some "oops", some "feat", none, [], false, []⟩
    ∧ parse defaultSettings "xbuild: oops" = .error "Invalid commit xbuild: oops" := by
  constructor
  · decide
  · decide

/-!
### C2: a successful parse and the type field
-/

theorem tryInitial_eq (s : List Char) (p : CParts) (h : tryInitial s = some p) :
    p = ⟨none, none, false, none⟩ := by
  rw [tryInitial] at h
  cases hc : chopLit "Initial commit".data s with
  | some r => rw [hc] at h; cases h; rfl
  | none => rw [hc] at h; cases h

theorem tryMerge_eq (s : List Char) (p : CParts) (h : tryMerge s = some p) :
    p = ⟨none, none, false, none⟩ := by
  rw [tryMerge] at h
  split at h
  · split at h
    · cases h
    · cases h; rfl
  · cases h

theorem tryTypeAlts_ctype (alts : List (String × Bool)) (atStart : Bool)
    (s : List Char) (p : CParts) (h : tryTypeAlts alts atStart s = some p) :
    ∃ lit anch, (lit, anch) ∈ alts ∧ p.ctype = some lit := by
  induction alts with
  | nil => rw [tryTypeAlts] at h; cases h
  | cons e rest ih =>
    obtain ⟨lit, anchored⟩ := e
    rw [tryTypeAlts] at h
    by_cases ha : anchored && !atStart
    · rw [if_pos ha] at h
      obtain ⟨l2, a2, hm, hc⟩ := ih h
      exact ⟨l2, a2, List.mem_cons_of_mem _ hm, hc⟩
    · rw [if_neg ha] at h
      split at h
      · split at h
        · cases h
          exact ⟨lit, anchored, List.mem_cons_self _ _, rfl⟩
        · obtain ⟨l2, a2, hm, hc2⟩ := ih h
          exact ⟨l2, a2, List.mem_cons_of_mem _ hm, hc2⟩
      · obtain ⟨l2, a2, hm, hc2⟩ := ih h
        exact ⟨l2, a2, List.mem_cons_of_mem _ hm, hc2⟩

theorem orElse_eq_some {α : Type} (a b : Option α) (x : α)
    (h : (a <|> b) = some x) : a = some x ∨ (a = none ∧ b = some x) := by
  cases a with
  | some y => left; simpa using h
  | none => right; exact ⟨rfl, by simpa using h⟩

theorem tryAt_cases (alts : List (String × Bool)) (atStart : Bool) (s : List Char)
    (p : CParts) (h : tryAt alts atStart s = some p) :
    (atStart = true ∧ (tryInitial s = some p ∨ tryMerge s = some p))
    ∨ tryTypeAlts alts atStart s = some p := by
  rw [tryAt] at h
  cases atStart with
  | false => right; simpa using h
  | true =>
    rw [if_pos rfl] at h
    rcases orElse_eq_some _ _ _ h with h1 | ⟨_, h2⟩
    · exact Or.inl ⟨rfl, Or.inl h1⟩
    · rcases orElse_eq_some _ _ _ h2 with h3 | ⟨_, h4⟩
      · exact Or.inl ⟨rfl, Or.inr h3⟩
      · exact Or.inr h4

theorem searchTail_ctype (alts : List (String × Bool)) (s : List Char) (p : CParts)
    (h : searchTail alts s = some p) :
    ∃ lit anch, (lit, anch) ∈ alts ∧ p.ctype = some lit := by
  induction s with
  | nil => rw [searchTail] at h; cases h
  | cons c cs ih =>
    rw [searchTail] at h
    rcases orElse_eq_some _ _ _ h with h1 | ⟨_, h2⟩
    · rcases tryAt_cases alts false cs p h1 with ⟨hfalse, _⟩ | h3
      · cases hfalse
      · exact tryTypeAlts_ctype alts false cs p h3
    · exact ih h2

theorem commitSearch_ctype (alts : List (String × Bool)) (s : List Char) (p : CParts)
    (h : commitSearch alts s = some p) :
    (p = ⟨none, none, false, none⟩ ∧ (tryInitial s = some p ∨ tryMerge s = some p))
    ∨ ∃ lit anch, (lit, anch) ∈ alts ∧ p.ctype = some lit := by
  rw [commitSearch] at h
  rcases orElse_eq_some _ _ _ h with h1 | ⟨_, h2⟩
  · rcases tryAt_cases alts true s p h1 with ⟨_, hi | hm⟩ | h3
    · exact Or.inl ⟨tryInitial_eq s p hi, Or.inl hi⟩
    · exact Or.inl ⟨tryMerge_eq s p hm, Or.inr hm⟩
    · exact Or.inr (tryTypeAlts_ctype alts true s p h3)
  · exact Or.inr (searchTail_ctype alts s p h2)

/-- C2 counterexample: the message `"Initial commit"` parses
successfully, yet the returned record's `change_type` (and summary) is
absent — the claimed invariant "`change_type` is always present and
non-empty when parsing succeeds" fails on the initial-commit and
merge-commit branches of the grammar. -/
theorem parse_initial_commit_zero_type :
    parse defaultSettings "Initial commit" =
      .ok ⟨"Initial commit", none, none, none, [], false, []⟩ := by
  decide

/-- C2 as amended: when `parse` under the default configuration
succeeds, either the first line matched the initial-commit or
merge-commit alternative and the record's `change_type` is absent, or
`change_type` is present and non-empty; a first line matching no
alternative yields a parse failure, never a record with empty fields. -/
theorem parse_type_nonempty (msg : String) (l : LogLine)
    (h : parse defaultSettings msg = .ok l) :
    (l.commit_type = none
      ∧ (tryInitial (firstLineChars msg) = some ⟨none, none, false, none⟩
        ∨ tryMerge (firstLineChars msg) = some ⟨none, none, false, none⟩))
    ∨ ∃ t, l.commit_type = some t ∧ t ≠ "" := by
  rw [parse] at h
  cases hs : commitSearch (commitAlts defaultSettings)
      ((trimChars msg.data).takeWhile (· ≠ '\n')) with
  | none =>
    rw [hs] at h
    cases h
  | some parts =>
    rw [hs] at h
    cases h
    rcases commitSearch_ctype _ _ _ hs with ⟨hp, hiorm⟩ | ⟨lit, anch, hmem, hc⟩
    · left
      subst hp
      exact ⟨rfl, hiorm⟩
    · right
      refine ⟨lit, hc, ?_⟩
      intro hlit
      subst hlit
      have hno : ∀ a : Bool, ("", a) ∈ commitAlts defaultSettings → False := by decide
      exact hno anch hmem

/-- Witness: the amended C2 theorem applied to a plain feature commit. -/
theorem parse_type_nonempty_witness :
    parse defaultSettings "feat: nice" =
      .ok ⟨"feat: nice", some "nice", some "feat", none, [], false, []⟩
    ∧ ((LogLine.commit_type ⟨"feat: nice", some "nice", some "feat", none, [], false, []⟩ = none
        ∧ (tryInitial (firstLineChars "feat: nice") = some ⟨none, none, false, none⟩
          ∨ tryMerge (firstLineChars "feat: nice") = some ⟨none, none, false, none⟩))
      ∨ ∃ t, LogLine.commit_type
          ⟨"feat: nice", some "nice", some "feat", none, [], false, []⟩ = some t ∧ t ≠ "") :=
  ⟨by decide, parse_type_nonempty "feat: nice" _ (by decide)⟩

/-!
### Lemmas: computing the parser on messages with symbolic parts
-/

theorem stringMk_data (s : String) : String.mk s.data = s := by
  cases s
  rfl

theorem takeWhile_app (p : Char → Bool) (l1 l2 : List Char)
    (h : ∀ a ∈ l1, p a = true) :
    (l1 ++ l2).takeWhile p = l1 ++ l2.takeWhile p := by
  induction l1 with
  | nil => simp
  | cons c cs ih =>
    rw [List.cons_append, List.takeWhile_cons, h c (List.mem_cons_self _ _), if_pos rfl]
    rw [ih (fun a ha => h a (List.mem_cons_of_mem _ ha))]
    simp

theorem takeWhile_append_stop (p : Char → Bool) (l1 : List Char) (c : Char)
    (l2 : List Char) (h : ∀ a ∈ l1, p a = true) (hc : p c = false) :
    (l1 ++ c :: l2).takeWhile p = l1 := by
  rw [takeWhile_app p l1 (c :: l2) h, List.takeWhile_cons, hc]
  simp

theorem drop_append_cons (l1 : List Char) (c : Char) (l2 : List Char) :
    (l1 ++ c :: l2).drop (l1.length + 1) = l2 := by
  induction l1 with
  | nil => simp
  | cons a as ih => simp [ih]

theorem dropTrail_append_of_neg (p : Char → Bool) (l : List Char) (c : Char)
    (h : p c = false) : dropTrail p (l ++ [c]) = l ++ [c] := by
  rw [dropTrail, List.reverse_append]
  simp only [List.reverse_cons, List.reverse_nil, List.nil_append, List.cons_append,
    List.dropWhile_cons, h]
  simp

theorem trimChars_no_strip (c : Char) (mid : List Char) (d : Char)
    (hc : pyIsSpace c = false) (hd : pyIsSpace d = false) :
    trimChars (c :: (mid ++ [d])) = c :: (mid ++ [d]) := by
  rw [trimChars, List.dropWhile_cons, hc]
  simp only [Bool.false_eq_true, if_false]
  have : c :: (mid ++ [d]) = (c :: mid) ++ [d] := by simp
  rw [this, dropTrail_append_of_neg pyIsSpace (c :: mid) d hd]

theorem splitOnChar_ne_nil (sep : Char) (l : List Char) : splitOnChar sep l ≠ [] := by
  induction l with
  | nil => simp [splitOnChar]
  | cons c cs ih =>
    rw [splitOnChar]
    cases h : splitOnChar sep cs with
    | nil => exact absurd h ih
    | cons a as =>
      by_cases hc : c = sep
      · simp [hc]
      · simp [hc]

theorem splitOnChar_sep_cons (sep : Char) (l : List Char) :
    splitOnChar sep (sep :: l) = [] :: splitOnChar sep l := by
  rw [splitOnChar]
  cases h : splitOnChar sep l with
  | nil => exact absurd h (splitOnChar_ne_nil sep l)
  | cons a as => simp

theorem splitOnChar_no_sep (sep : Char) (l : List Char) (h : sep ∉ l) :
    splitOnChar sep l = [l] := by
  induction l with
  | nil => rfl
  | cons c cs ih =>
    rw [splitOnChar, ih (fun hm => h (List.mem_cons_of_mem _ hm))]
    have hc : ¬ c = sep := fun hc => h (hc ▸ List.mem_cons_self _ _)
    simp [hc]

theorem splitOnChar_append_sep (sep : Char) (l1 rest : List Char) (h : sep ∉ l1) :
    splitOnChar sep (l1 ++ sep :: rest) = l1 :: splitOnChar sep rest := by
  induction l1 with
  | nil => simpa using splitOnChar_sep_cons sep rest
  | cons c cs ih =>
    rw [List.cons_append, splitOnChar,
      ih (fun hm => h (List.mem_cons_of_mem _ hm))]
    have hc : ¬ c = sep := fun hc => h (hc ▸ List.mem_cons_self _ _)
    simp [hc]

theorem takeWhile_nil_of_head (p : Char → Bool) (c : Char) (l : List Char)
    (h : p c = false) : (c :: l).takeWhile p = [] := by
  simp [List.takeWhile_cons, h]

/-- A reference-trailer line `<action>: <refs>` whose action starts with
a non-whitespace character and consists of action-class characters
matches with exactly that action and the rest of the line as refs. -/
theorem refMatchLine_action (a : Char) (act x : List Char)
    (hhead : pyIsSpace a = false)
    (hclass : ∀ c ∈ a :: act, refActionChar c = true) :
    refMatchLine (a :: (act ++ ':' :: ' ' :: x)) =
      some (String.mk (a :: act), String.mk x) := by
  rw [refMatchLine, takeWhile_nil_of_head pyIsSpace a _ hhead, List.length_nil,
    refDesc, refTryAt]
  have h1 : List.takeWhile refActionChar (a :: (act ++ ':' :: ' ' :: x)) = a :: act := by
    rw [List.takeWhile_cons, hclass a (List.mem_cons_self _ _), if_pos rfl]
    rw [takeWhile_append_stop refActionChar act ':' (' ' :: x)
      (fun c hc => hclass c (List.mem_cons_of_mem _ hc)) (by decide)]
  rw [h1]
  have h2 : List.drop (a :: act).length (a :: (act ++ ':' :: ' ' :: x)) =
      ':' :: ' ' :: x := by
    simp only [List.length_cons, List.drop_succ_cons]
    exact List.drop_left act _
  rw [h2]
  simp

/-- Computing `parse` on a two-part message whose stripped form is
`first line ++ '\n' ++ body`. -/
theorem parse_decompose (settings : Settings) (fl body : List Char)
    (hnl : '\n' ∉ fl)
    (htrim : trimChars (fl ++ '\n' :: body) = fl ++ '\n' :: body) :
    parse settings (String.mk (fl ++ '\n' :: body)) =
      (match commitSearch (commitAlts settings) fl with
      | none => .error ("Invalid commit " ++ String.mk fl)
      | some parts =>
        .ok
          { message := String.mk (fl ++ '\n' :: body)
            summary := parts.summary
            commit_type := parts.ctype
            scope := parts.scope
            references :=
              (getReferencesFromMsg settings.reference_aliases (String.mk body)).getD []
            breaking_change :=
              !(List.isEmpty
                  ((((getReferencesFromMsg settings.reference_aliases
                    (String.mk body)).getD []).lookup "BREAKING CHANGE").getD []))
                || parts.breaking
            breaking_changes :=
              (((getReferencesFromMsg settings.reference_aliases
                (String.mk body)).getD []).lookup "BREAKING CHANGE").getD [] }) := by
  rw [parse]
  have hdata : (String.mk (fl ++ '\n' :: body)).data = fl ++ '\n' :: body := rfl
  rw [hdata, htrim]
  have hfl : (fl ++ '\n' :: body).takeWhile (· ≠ '\n') = fl := by
    apply takeWhile_append_stop
    · intro a ha
      simp only [decide_eq_true_eq, ne_eq]
      intro h
      subst h
      exact hnl ha
    · simp
  have hcont : (fl ++ '\n' :: body).contains '\n' = true := by simp
  rw [hfl, hcont]
  simp only [if_true]
  rw [drop_append_cons]

/-!
### C3: breaking-change reconciliation
-/

/-- C3 counterexample: a message carrying the multi-line inline
`BREAKING CHANGE:` block (the form `_get_breaking_changes` extracts,
shown in the second conjunct) parses with EMPTY `breaking_changes` and
`breaking_change = false` — `parse` consults only the reference-trailer
pseudo-action, never the block regex, so the two representations are
not reconciled. -/
theorem parse_ignores_breaking_block :
    parse defaultSettings "feat: x\n\nBREAKING CHANGE:\n    broken\n\n." =
      .ok ⟨"feat: x\n\nBREAKING CHANGE:\n    broken\n\n.", some "x", some "feat",
        none, [], false, []⟩
    ∧ getBreakingChanges "feat: x\n\nBREAKING CHANGE:\n    broken\n\n." =
      some ["broken"] := by
  constructor
  · decide
  · decide

/-- The reference dict of the body `"\nBREAKING CHANGE: <d>\n."`. -/
theorem c3_body_refs (d : String) (hnl : '\n' ∉ d.data) (hcm : ',' ∉ d.data) :
    getReferencesFromMsg defaultSettings.reference_aliases
      (String.mk ('\n' :: ("BREAKING CHANGE: ".data ++ (d.data ++ ['\n', '.'])))) =
      some [("BREAKING CHANGE", [pyStrip d])] := by
  have hline : "BREAKING CHANGE: ".data ++ d.data =
      'B' :: ("REAKING CHANGE".data ++ ':' :: ' ' :: d.data) := rfl
  have hnotin : '\n' ∉ "BREAKING CHANGE: ".data ++ d.data := by
    intro hmem
    rcases List.mem_append.mp hmem with h | h
    · revert h
      decide
    · exact hnl h
  have hre : "BREAKING CHANGE: ".data ++ (d.data ++ ['\n', '.']) =
      ("BREAKING CHANGE: ".data ++ d.data) ++ '\n' :: ['.'] := by
    simp
  have hsplit : splitLines ('\n' :: ("BREAKING CHANGE: ".data ++ (d.data ++ ['\n', '.']))) =
      [[], "BREAKING CHANGE: ".data ++ d.data, ['.']] := by
    rw [splitLines, splitOnChar_sep_cons, hre,
      splitOnChar_append_sep '\n' _ _ hnotin,
      splitOnChar_no_sep '\n' ['.'] (by decide)]
  have hfound : refFindall
      (String.mk ('\n' :: ("BREAKING CHANGE: ".data ++ (d.data ++ ['\n', '.'])))) =
      [("BREAKING CHANGE", d)] := by
    rw [refFindall]
    have hdata : (String.mk ('\n' :: ("BREAKING CHANGE: ".data ++ (d.data ++ ['\n', '.'])))).data
        = '\n' :: ("BREAKING CHANGE: ".data ++ (d.data ++ ['\n', '.'])) := rfl
    rw [hdata, hsplit]
    rw [List.filterMap_cons, List.filterMap_cons, List.filterMap_cons, List.filterMap_nil]
    have h1 : refMatchLine ([] : List Char) = none := by decide
    have h3 : refMatchLine ['.'] = none := by decide
    rw [h1, h3, hline, refMatchLine_action 'B' "REAKING CHANGE".data d.data (by decide)
      (by decide)]
  rw [getReferencesFromMsg, hfound]
  simp only [List.isEmpty_cons, Bool.false_eq_true, if_false]
  rw [buildRefs, List.foldl_cons, List.foldl_nil]
  have hcanon : canonicalAction defaultSettings.reference_aliases "BREAKING CHANGE" =
      "BREAKING CHANGE" := by decide
  rw [hcanon]
  rw [splitOnChar_no_sep ',' d.data hcm]
  rw [List.foldl_cons, List.foldl_nil]
  rfl

/-- C3 as amended: `parse` populates `breaking_descriptions` solely from
the `"BREAKING CHANGE"` pseudo-action of the reference-trailer
mechanism (first conjunct); `is_breaking` is the OR of "some breaking
description present" and "the `!` marker matched on the first line"
(second conjunct); a single-line `BREAKING CHANGE: <desc>` trailer is
reconciled, with the description trimmed (third conjunct).  The
multi-line block form handled by `_get_breaking_changes` is NOT
consulted (see the counterexample). -/
theorem parse_breaking_sources :
    (∀ (msg : String) (l : LogLine), parse defaultSettings msg = .ok l →
      l.breaking_changes =
        ((((getReferencesFromMsg defaultSettings.reference_aliases
          (String.mk (bodyChars msg))).getD []).lookup "BREAKING CHANGE").getD []))
    ∧ (∀ (msg : String) (l : LogLine), parse defaultSettings msg = .ok l →
        l.breaking_change =
          (!l.breaking_changes.isEmpty
            || ((commitSearch (commitAlts defaultSettings) (firstLineChars msg)).map
              CParts.breaking).getD false))
    ∧ (∀ d : String, '\n' ∉ d.data → ',' ∉ d.data →
        parse defaultSettings ("feat: x\n\nBREAKING CHANGE: " ++ d ++ "\n.") =
          .ok ⟨"feat: x\n\nBREAKING CHANGE: " ++ d ++ "\n.", some "x", some "feat",
            none, [("BREAKING CHANGE", [pyStrip d])], true, [pyStrip d]⟩) := by
  refine ⟨?_, ?_, ?_⟩
  · intro msg l h
    rw [parse] at h
    cases hs : commitSearch (commitAlts defaultSettings)
        ((trimChars msg.data).takeWhile (· ≠ '\n')) with
    | none => rw [hs] at h; cases h
    | some parts => rw [hs] at h; cases h; rfl
  · intro msg l h
    rw [parse] at h
    cases hs : commitSearch (commitAlts defaultSettings)
        ((trimChars msg.data).takeWhile (· ≠ '\n')) with
    | none => rw [hs] at h; cases h
    | some parts =>
      rw [hs] at h
      cases h
      simp only [firstLineChars]
      rw [hs]
      rfl
  · intro d hnl hcm
    have hmsg : ("feat: x\n\nBREAKING CHANGE: " ++ d ++ "\n.").data =
        "feat: x".data ++ '\n' ::
          ('\n' :: ("BREAKING CHANGE: ".data ++ (d.data ++ ['\n', '.']))) := by
      have e1 : "feat: x\n\nBREAKING CHANGE: ".data =
          "feat: x".data ++ '\n' :: '\n' :: "BREAKING CHANGE: ".data := rfl
      have e2 : "\n.".data = ['\n', '.'] := rfl
      rw [String.data_append, String.data_append, e1, e2]
      simp
    have horig : "feat: x\n\nBREAKING CHANGE: " ++ d ++ "\n." =
        String.mk ("feat: x".data ++ '\n' ::
          ('\n' :: ("BREAKING CHANGE: ".data ++ (d.data ++ ['\n', '.'])))) := by
      rw [← hmsg, stringMk_data]
    have htrim : trimChars ("feat: x".data ++ '\n' ::
        ('\n' :: ("BREAKING CHANGE: ".data ++ (d.data ++ ['\n', '.'])))) =
        "feat: x".data ++ '\n' ::
          ('\n' :: ("BREAKING CHANGE: ".data ++ (d.data ++ ['\n', '.']))) := by
      have e3 : "feat: x".data ++ '\n' ::
          ('\n' :: ("BREAKING CHANGE: ".data ++ (d.data ++ ['\n', '.']))) =
          'f' :: (("eat: x".data ++ '\n' :: '\n' :: "BREAKING CHANGE: ".data
            ++ d.data ++ ['\n']) ++ ['.']) := by
        simp
      rw [e3, trimChars_no_strip 'f' _ '.' (by decide) (by decide)]
    rw [horig, parse_decompose defaultSettings _ _ (by decide) htrim]
    have hsearch : commitSearch (commitAlts defaultSettings) "feat: x".data =
        some ⟨some "feat", none, false, some "x"⟩ := by decide
    rw [hsearch, c3_body_refs d hnl hcm]
    simp [List.lookup]

/-- Witness: the amended breaking-change theorem applied to a trailer
with surrounding whitespace in the description. -/
theorem parse_breaking_sources_witness :
    '\n' ∉ " broke ".data ∧ ',' ∉ " broke ".data ∧
    parse defaultSettings ("feat: x\n\nBREAKING CHANGE: " ++ " broke " ++ "\n.") =
      .ok ⟨"feat: x\n\nBREAKING CHANGE: " ++ " broke " ++ "\n.", some "x", some "feat",
        none, [("BREAKING CHANGE", [pyStrip " broke "])], true, [pyStrip " broke "]⟩ :=
  ⟨by decide, by decide, parse_breaking_sources.2.2 " broke " (by decide) (by decide)⟩

/-!
### C9 and C10: the orchestrator's early returns
-/

/-- C9 counterexample: with only the synthesized unreleased version (no
tagged versions), `get_changelog` with `hide_empty_releases = true` and
an unreleased label still returns the empty section, NAMED `"HEAD"` —
the one-version early return skips both the rename and the hide-empty
pass, against the claim that every `HEAD` section is renamed and every
empty-`changes` section is dropped. -/
theorem get_changelog_single_skips_rename_and_hide :
    get_changelog plainGen none none true "Unreleased" true none 0 =
      ⟨"Changelog", [⟨⟨"HEAD", some 0, none⟩, [], [], [], "", ""⟩]⟩ := by
  decide

/-- The multi-version path of `get_changelog`, written out. -/
theorem get_changelog_multi (gen : Generator) (title : Option String)
    (cts : Option (List String)) (unrel : Bool) (label : String) (hide : Bool)
    (cl : Option Nat) (now : Nat) (v1 v2 : Version) (rest : List Version)
    (hv : assembledVersions gen unrel now = v1 :: v2 :: rest) :
    get_changelog gen title cts unrel label hide cl now =
      ⟨title.getD gen.settings.changelog_title,
        (if hide then
          ((buildPairs gen cts cl now (v1 :: v2 :: rest)).map
            (fun s => if s.version.name = "HEAD" then
              { s with version := { s.version with name := label } } else s)).filter
            (fun s => !s.changes.isEmpty)
        else
          (buildPairs gen cts cl now (v1 :: v2 :: rest)).map
            (fun s => if s.version.name = "HEAD" then
              { s with version := { s.version with name := label } } else s))⟩ := by
  rw [get_changelog, hv]

/-- C9 as amended: in the multi-version path (two or more assembled
versions) every produced section named `"HEAD"` is renamed to the
unreleased label before the hide-empty pass, and `hide_empty_releases`
then drops exactly the sections whose `changes` mapping is empty (a
section with only reverts, breaking changes, header or footer is still
dropped); the zero- and one-version early returns skip both steps. -/
theorem get_changelog_rename_before_hide (gen : Generator) (title : Option String)
    (cts : Option (List String)) (unrel : Bool) (label : String)
    (cl : Option Nat) (now : Nat) (v1 v2 : Version) (rest : List Version)
    (hv : assembledVersions gen unrel now = v1 :: v2 :: rest) :
    ((get_changelog gen title cts unrel label true cl now).sections =
      ((get_changelog gen title cts unrel label false cl now).sections).filter
        (fun s => !s.changes.isEmpty))
    ∧ (label ≠ "HEAD" →
        ∀ s ∈ (get_changelog gen title cts unrel label false cl now).sections,
          s.version.name ≠ "HEAD") := by
  rw [get_changelog_multi gen title cts unrel label true cl now v1 v2 rest hv,
    get_changelog_multi gen title cts unrel label false cl now v1 v2 rest hv]
  constructor
  · rfl
  · intro hlabel s hs
    have hs2 : s ∈ (buildPairs gen cts cl now (v1 :: v2 :: rest)).map
        (fun s => if s.version.name = "HEAD" then
          { s with version := { s.version with name := label } } else s) := hs
    obtain ⟨s0, hm0, hs0⟩ := List.mem_map.mp hs2
    by_cases hn : s0.version.name = "HEAD"
    · rw [if_pos hn] at hs0
      rw [← hs0]
      exact hlabel
    · rw [if_neg hn] at hs0
      rw [← hs0]
      exact hn

/-- A generator with one tagged version, for the multi-version path. -/
def taggedGen : Generator where
  settings := defaultSettings
  log_providers := [fun _ => ["feat: shiny"]]
  versions_provider := [⟨"v1.0.0", some 5, some ⟨1, 0, 0⟩⟩]
  log_filters := []
  headerFile := fun _ => none
  footerFile := fun _ => none

/-- Witness: the rename/hide theorem on a two-version sequence. -/
theorem get_changelog_rename_before_hide_witness :
    assembledVersions taggedGen true 0 =
      ⟨"HEAD", some 0, none⟩ :: ⟨"v1.0.0", some 5, some ⟨1, 0, 0⟩⟩ :: []
    ∧ (((get_changelog taggedGen none none true "Unreleased" true none 0).sections =
        ((get_changelog taggedGen none none true "Unreleased" false none 0).sections).filter
          (fun s => !s.changes.isEmpty))
      ∧ ("Unreleased" ≠ "HEAD" →
          ∀ s ∈ (get_changelog taggedGen none none true "Unreleased" false none 0).sections,
            s.version.name ≠ "HEAD")) :=
  ⟨by decide,
    get_changelog_rename_before_hide taggedGen none none true "Unreleased" none 0
      ⟨"HEAD", some 0, none⟩ ⟨"v1.0.0", some 5, some ⟨1, 0, 0⟩⟩ [] (by decide)⟩

/-- Every section built by the multi-version loop receives the loop's
`commit_limit` argument. -/
theorem buildPairs_mem (gen : Generator) (cts : Option (List String))
    (cl : Option Nat) (now : Nat) :
    ∀ (vs : List Version) (s : ChangelogSection), s ∈ buildPairs gen cts cl now vs →
      ∃ v tv, s = get_changelog_section gen (some v) tv cts cl now := by
  intro vs
  induction vs with
  | nil =>
    intro s hs
    rw [buildPairs] at hs
    cases hs
  | cons v rest ih =>
    cases rest with
    | nil =>
      intro s hs
      rw [buildPairs] at hs
      rcases List.mem_singleton.mp hs with rfl
      exact ⟨v, none, rfl⟩
    | cons v2 rest2 =>
      intro s hs
      rw [buildPairs] at hs
      rcases List.mem_cons.mp hs with rfl | hs2
      · exact ⟨v, some v2, rfl⟩
      · exact ih s hs2

/-- C10: when the assembled version sequence has exactly one version,
`get_changelog` builds the single section WITHOUT forwarding the
caller's `commit_limit` (the build receives `none`); with two versions,
`commit_limit` is forwarded to both section builds, and in general every
section of the multi-version path comes (up to the `HEAD` rename) from a
build that received `commit_limit`. -/
theorem get_changelog_commit_limit_forwarding (gen : Generator) (title : Option String)
    (cts : Option (List String)) (unrel : Bool) (label : String) (hide : Bool)
    (cl : Option Nat) (now : Nat) :
    (∀ v, assembledVersions gen unrel now = [v] →
      get_changelog gen title cts unrel label hide cl now =
        ⟨title.getD gen.settings.changelog_title,
          [get_changelog_section gen (some v) none cts none now]⟩)
    ∧ (∀ v1 v2, assembledVersions gen unrel now = [v1, v2] →
        (get_changelog gen title cts unrel label false cl now).sections =
          [get_changelog_section gen (some v1) (some v2) cts cl now,
            get_changelog_section gen (some v2) none cts cl now].map
            (fun s => if s.version.name = "HEAD" then
              { s with version := { s.version with name := label } } else s))
    ∧ (∀ v1 v2 rest, assembledVersions gen unrel now = v1 :: v2 :: rest →
        ∀ s ∈ (get_changelog gen title cts unrel label false cl now).sections,
          ∃ v tv s0, s0 = get_changelog_section gen (some v) tv cts cl now
            ∧ (s = s0 ∨ s = { s0 with version := { s0.version with name := label } })) := by
  refine ⟨?_, ?_, ?_⟩
  · intro v hv
    rw [get_changelog, hv]
  · intro v1 v2 hv
    rw [get_changelog, hv]
    rfl
  · intro v1 v2 rest hv s hs
    rw [get_changelog_multi gen title cts unrel label false cl now v1 v2 rest hv] at hs
    have hs2 : s ∈ (buildPairs gen cts cl now (v1 :: v2 :: rest)).map
        (fun s => if s.version.name = "HEAD" then
          { s with version := { s.version with name := label } } else s) := hs
    obtain ⟨s0, hm0, hs0⟩ := List.mem_map.mp hs2
    obtain ⟨v, tv, h0⟩ := buildPairs_mem gen cts cl now (v1 :: v2 :: rest) s0 hm0
    refine ⟨v, tv, s0, h0, ?_⟩
    by_cases hn : s0.version.name = "HEAD"
    · rw [if_pos hn] at hs0
      right
      exact hs0.symm
    · rw [if_neg hn] at hs0
      left
      exact hs0.symm

/-- Witness: the commit-limit theorem on a one-version sequence (the
provider ignores its options, so the result is fully computable). -/
theorem get_changelog_commit_limit_forwarding_witness :
    assembledVersions plainGen true 0 = [⟨"HEAD", some 0, none⟩]
    ∧ get_changelog plainGen none none true "U" false (some 7) 0 =
      ⟨none.getD plainGen.settings.changelog_title,
        [get_changelog_section plainGen (some ⟨"HEAD", some 0, none⟩) none none none 0]⟩ :=
  ⟨by decide,
    (get_changelog_commit_limit_forwarding plainGen none none true "U" false
      (some 7) 0).1 ⟨"HEAD", some 0, none⟩ (by decide)⟩

/-!
### C4: what the type filter does and does not restrict
-/

/-- Settings extending the defaults with a configured `revert` type, so
that revert commits are parseable. -/
def revertSettings : Settings :=
  { defaultSettings with
      commit_types := defaultSettings.commit_types ++ [("revert", "Reverts")] }

/-- A generator whose log holds one revert commit and one feature
commit. -/
def revertGen : Generator where
  settings := revertSettings
  log_providers := [fun _ => ["revert: undo stuff", "feat: shiny"]]
  versions_provider := []
  log_filters := []
  headerFile := fun _ => none
  footerFile := fun _ => none

/-- C4 counterexample: with a type filter of `["feat"]`, the pre-filter
parsed set contains a revert record, yet the built section's `reverts`
list is empty — `reverts` is computed AFTER the type filter, so it IS
restricted by it, against the claim that neither list is. -/
theorem section_reverts_restricted_by_filter :
    ((sectionParsed revertGen none "HEAD").filter
        (fun l => l.commit_type == some "revert")).length = 1
    ∧ (get_changelog_section revertGen none none (some ["feat"]) none 0).reverts = [] := by
  constructor
  · decide
  · decide

theorem isEmpty_ne_of_ne_nil {α : Type} (l : List α) (h : l ≠ []) :
    ¬ l.isEmpty = true := by
  cases l with
  | nil => exact absurd rfl h
  | cons a as => simp

/-- C4 as amended: `breaking_changes` is captured from the parsed set
BEFORE the type filter and `reverts` from the set AFTER it (so the
filter, unless it lists the type or contains `"all"`, does restrict
`reverts`); and when nothing survives the filter the early return
discards both lists entirely, whatever the pre-filter set contained. -/
theorem get_changelog_section_capture (gen : Generator) (fv tv : Option Version)
    (cts : Option (List String)) (cl : Option Nat) (now : Nat) (rev : String)
    (hrev : rev = (match tv with
      | some t => (fv.getD ⟨"HEAD", some now, none⟩).name ++ "..." ++ t.name
      | none => (fv.getD ⟨"HEAD", some now, none⟩).name)) :
    ((applyTypeFilter cts (sectionParsed gen cl rev) ≠ []) →
      (get_changelog_section gen fv tv cts cl now).breaking_changes =
        (sectionParsed gen cl rev).filter (fun l => l.breaking_change)
      ∧ (get_changelog_section gen fv tv cts cl now).reverts =
        (applyTypeFilter cts (sectionParsed gen cl rev)).filter
          (fun l => l.commit_type == some "revert"))
    ∧ ((applyTypeFilter cts (sectionParsed gen cl rev) = []) →
      (get_changelog_section gen fv tv cts cl now) =
        ⟨fv.getD ⟨"HEAD", some now, none⟩, [], [], [],
          ((gen.headerFile (fv.getD ⟨"HEAD", some now, none⟩).name).map pyStrip).getD "",
          ((gen.footerFile (fv.getD ⟨"HEAD", some now, none⟩).name).map pyStrip).getD ""⟩) := by
  subst hrev
  cases tv with
  | none =>
    rw [get_changelog_section.eq_def]
    constructor
    · intro hne
      rw [if_neg (isEmpty_ne_of_ne_nil _ hne)]
      exact ⟨rfl, rfl⟩
    · intro hnil
      rw [if_pos (by rw [hnil]; rfl)]
  | some t =>
    rw [get_changelog_section.eq_def]
    constructor
    · intro hne
      rw [if_neg (isEmpty_ne_of_ne_nil _ hne)]
      exact ⟨rfl, rfl⟩
    · intro hnil
      rw [if_pos (by rw [hnil]; rfl)]

/-- Witness: the capture theorem on the revert/feature log with a
`["feat"]` filter. -/
theorem get_changelog_section_capture_witness :
    ("HEAD" : String) = (match (none : Option Version) with
      | some t => ((none : Option Version).getD ⟨"HEAD", some 0, none⟩).name
          ++ "..." ++ t.name
      | none => ((none : Option Version).getD ⟨"HEAD", some 0, none⟩).name)
    ∧ (((applyTypeFilter (some ["feat"]) (sectionParsed revertGen none "HEAD") ≠ []) →
        (get_changelog_section revertGen none none (some ["feat"]) none 0).breaking_changes =
          (sectionParsed revertGen none "HEAD").filter (fun l => l.breaking_change)
        ∧ (get_changelog_section revertGen none none (some ["feat"]) none 0).reverts =
          (applyTypeFilter (some ["feat"]) (sectionParsed revertGen none "HEAD")).filter
            (fun l => l.commit_type == some "revert"))
      ∧ ((applyTypeFilter (some ["feat"]) (sectionParsed revertGen none "HEAD") = []) →
        (get_changelog_section revertGen none none (some ["feat"]) none 0) =
          ⟨(none : Option Version).getD ⟨"HEAD", some 0, none⟩, [], [], [],
            ((revertGen.headerFile
              ((none : Option Version).getD ⟨"HEAD", some 0, none⟩).name).map pyStrip).getD "",
            ((revertGen.footerFile
              ((none : Option Version).getD ⟨"HEAD", some 0, none⟩).name).map pyStrip).getD ""⟩)) :=
  ⟨rfl, get_changelog_section_capture revertGen none none (some ["feat"]) none 0 "HEAD" rfl⟩

/-!
### C7: reference-alias folding
-/

theorem contains_false_of_not_mem (l : List String) (a : String) (h : a ∉ l) :
    l.contains a = false := by
  cases hc : l.contains a
  · rfl
  · exact absurd (by simpa using hc) h

theorem canonicalAction_noop (a : String)
    (hno : a ∉ (["Close", "Closed", "Fix", "Fixed", "Resolve", "Resolved",
      "Relate", "Related"] : List String)) :
    canonicalAction defaultSettings.reference_aliases a = a := by
  have m1 : a ∉ (["Close", "Closed"] : List String) := by
    intro hm
    apply hno
    simp only [List.mem_cons, List.not_mem_nil, or_false] at hm ⊢
    tauto
  have m2 : a ∉ (["Fix", "Fixed"] : List String) := by
    intro hm
    apply hno
    simp only [List.mem_cons, List.not_mem_nil, or_false] at hm ⊢
    tauto
  have m3 : a ∉ (["Resolve", "Resolved"] : List String) := by
    intro hm
    apply hno
    simp only [List.mem_cons, List.not_mem_nil, or_false] at hm ⊢
    tauto
  have m4 : a ∉ (["Relate", "Related"] : List String) := by
    intro hm
    apply hno
    simp only [List.mem_cons, List.not_mem_nil, or_false] at hm ⊢
    tauto
  rw [canonicalAction]
  simp [defaultSettings, m1, m2, m3, m4]

theorem canonicalAction_not_alias (a : String) :
    ∀ e ∈ defaultSettings.reference_aliases,
      canonicalAction defaultSettings.reference_aliases a ∉ e.2 := by
  by_cases ha : a ∈ (["Close", "Closed", "Fix", "Fixed", "Resolve", "Resolved",
      "Relate", "Related"] : List String)
  · simp only [List.mem_cons, List.not_mem_nil, or_false] at ha
    rcases ha with rfl | rfl | rfl | rfl | rfl | rfl | rfl | rfl <;> decide
  · rw [canonicalAction_noop a ha]
    intro e he hmem
    apply ha
    revert he
    rw [show defaultSettings.reference_aliases =
      [("Closes", ["Close", "Closed"]), ("Fixes", ["Fix", "Fixed"]),
       ("Resolves", ["Resolve", "Resolved"]),
       ("Relates", ["Relate", "Related"])] from rfl]
    intro he
    simp only [List.mem_cons, List.not_mem_nil, or_false] at he
    rcases he with rfl | rfl | rfl | rfl <;> simp_all

theorem addRef_keys_eq (refs : List (String × List String)) (k id : String) :
    (addRef refs k id).map Prod.fst =
      if refs.any (fun p => p.1 == k) then refs.map Prod.fst
      else refs.map Prod.fst ++ [k] := by
  rw [addRef]
  by_cases hany : refs.any (fun p => p.1 == k)
  · rw [if_pos hany, if_pos hany, List.map_map]
    apply List.map_congr_left
    intro p hp
    by_cases hk : p.1 = k
    · simp [hk]
    · simp [hk]
  · rw [if_neg hany, if_neg hany, List.map_append]
    rfl

theorem addRef_keys (refs : List (String × List String)) (k id k2 : String)
    (h : k2 ∈ (addRef refs k id).map Prod.fst) :
    k2 ∈ refs.map Prod.fst ∨ k2 = k := by
  rw [addRef_keys_eq refs k id] at h
  by_cases hany : refs.any (fun p => p.1 == k)
  · rw [if_pos hany] at h
    left
    exact h
  · rw [if_neg hany] at h
    rcases List.mem_append.mp h with h2 | h2
    · left; exact h2
    · right; simpa using h2

theorem foldl_addRef_keys (action : String) (ids : List (List Char))
    (acc : List (String × List String)) :
    ∀ k ∈ ((ids.foldl (fun r idc => addRef r action (String.mk (trimChars idc)))
        acc).map Prod.fst),
      k ∈ acc.map Prod.fst ∨ k = action := by
  induction ids generalizing acc with
  | nil => intro k hk; left; exact hk
  | cons i is ih =>
    intro k hk
    rw [List.foldl_cons] at hk
    rcases ih (addRef acc action (String.mk (trimChars i))) k hk with h | h
    · exact addRef_keys acc action _ k h
    · right; exact h

theorem buildRefs_keys (aliases : List (String × List String))
    (found : List (String × String)) :
    ∀ k ∈ (buildRefs aliases found).map Prod.fst,
      ∃ a, k = canonicalAction aliases a := by
  rw [buildRefs]
  have hbase : ∀ k ∈ ([] : List (String × List String)).map Prod.fst,
      ∃ a, k = canonicalAction aliases a := by
    intro k hk
    simp at hk
  generalize ([] : List (String × List String)) = acc at hbase ⊢
  induction found generalizing acc with
  | nil => exact hbase
  | cons av avs ih =>
    rw [List.foldl_cons]
    apply ih
    intro k hk
    rcases foldl_addRef_keys (canonicalAction aliases av.1)
        (splitOnChar ',' av.2.data) acc k hk with h | h
    · exact hbase k h
    · exact ⟨av.1, h⟩

/-- The reference dict of the body `"\nFix: <x>\nFixed: <y>\n."`. -/
theorem c7_body_refs (x y : String)
    (hxnl : '\n' ∉ x.data) (hxcm : ',' ∉ x.data)
    (hynl : '\n' ∉ y.data) (hycm : ',' ∉ y.data)
    (hxy : pyStrip x ≠ pyStrip y) :
    getReferencesFromMsg defaultSettings.reference_aliases
      (String.mk ('\n' :: ("Fix: ".data ++ (x.data ++
        ('\n' :: ("Fixed: ".data ++ (y.data ++ ['\n', '.']))))))) =
      some [("Fixes", [pyStrip x, pyStrip y])] := by
  have hnotin1 : '\n' ∉ "Fix: ".data ++ x.data := by
    intro hmem
    rcases List.mem_append.mp hmem with h | h
    · revert h
      decide
    · exact hxnl h
  have hnotin2 : '\n' ∉ "Fixed: ".data ++ y.data := by
    intro hmem
    rcases List.mem_append.mp hmem with h | h
    · revert h
      decide
    · exact hynl h
  have hre1 : "Fix: ".data ++ (x.data ++
      ('\n' :: ("Fixed: ".data ++ (y.data ++ ['\n', '.'])))) =
      ("Fix: ".data ++ x.data) ++ '\n' :: ("Fixed: ".data ++ (y.data ++ ['\n', '.'])) := by
    simp
  have hre2 : "Fixed: ".data ++ (y.data ++ ['\n', '.']) =
      ("Fixed: ".data ++ y.data) ++ '\n' :: ['.'] := by
    simp
  have hsplit : splitLines ('\n' :: ("Fix: ".data ++ (x.data ++
      ('\n' :: ("Fixed: ".data ++ (y.data ++ ['\n', '.'])))))) =
      [[], "Fix: ".data ++ x.data, "Fixed: ".data ++ y.data, ['.']] := by
    rw [splitLines, splitOnChar_sep_cons, hre1,
      splitOnChar_append_sep '\n' _ _ hnotin1, hre2,
      splitOnChar_append_sep '\n' _ _ hnotin2,
      splitOnChar_no_sep '\n' ['.'] (by decide)]
  have hline1 : "Fix: ".data ++ x.data = 'F' :: ("ix".data ++ ':' :: ' ' :: x.data) := rfl
  have hline2 : "Fixed: ".data ++ y.data =
      'F' :: ("ixed".data ++ ':' :: ' ' :: y.data) := rfl
  have hfound : refFindall (String.mk ('\n' :: ("Fix: ".data ++ (x.data ++
      ('\n' :: ("Fixed: ".data ++ (y.data ++ ['\n', '.']))))))) =
      [("Fix", x), ("Fixed", y)] := by
    rw [refFindall]
    rw [show (String.mk ('\n' :: ("Fix: ".data ++ (x.data ++
      ('\n' :: ("Fixed: ".data ++ (y.data ++ ['\n', '.']))))))).data =
      '\n' :: ("Fix: ".data ++ (x.data ++
        ('\n' :: ("Fixed: ".data ++ (y.data ++ ['\n', '.']))))) from rfl]
    rw [hsplit]
    rw [List.filterMap_cons, List.filterMap_cons, List.filterMap_cons,
      List.filterMap_cons, List.filterMap_nil]
    rw [show refMatchLine ([] : List Char) = none from rfl,
      show refMatchLine ['.'] = none from by decide, hline1, hline2,
      refMatchLine_action 'F' "ix".data x.data (by decide) (by decide),
      refMatchLine_action 'F' "ixed".data y.data (by decide) (by decide)]
  rw [getReferencesFromMsg, hfound]
  simp only [List.isEmpty_cons, Bool.false_eq_true, if_false]
  rw [buildRefs, List.foldl_cons, List.foldl_cons, List.foldl_nil]
  rw [show canonicalAction defaultSettings.reference_aliases "Fix" = "Fixes" from by decide,
    show canonicalAction defaultSettings.reference_aliases "Fixed" = "Fixes" from by decide]
  rw [splitOnChar_no_sep ',' x.data hxcm, splitOnChar_no_sep ',' y.data hycm]
  rw [List.foldl_cons, List.foldl_nil, List.foldl_cons, List.foldl_nil]
  rw [show addRef [] "Fixes" (String.mk (trimChars x.data)) =
    [("Fixes", [String.mk (trimChars x.data)])] from rfl]
  have hcont : ([String.mk (trimChars x.data)] : List String).contains
      (String.mk (trimChars y.data)) = false := by
    apply contains_false_of_not_mem
    intro hm
    apply hxy
    simp only [List.mem_singleton] at hm
    exact hm.symm
  rw [addRef, if_pos (by simp)]
  simp only [List.map_cons, List.map_nil, beq_self_eq_true, if_pos rfl, hcont]
  rfl

/-- The `references` of a successful parse come from the reference
mechanism applied to the message body. -/
theorem parse_references_eq (msg : String) (l : LogLine)
    (h : parse defaultSettings msg = .ok l) :
    l.references = (getReferencesFromMsg defaultSettings.reference_aliases
      (String.mk (bodyChars msg))).getD [] := by
  rw [parse] at h
  cases hs : commitSearch (commitAlts defaultSettings)
      ((trimChars msg.data).takeWhile (· ≠ '\n')) with
  | none => rw [hs] at h; cases h
  | some parts => rw [hs] at h; cases h; rfl

/-- C7: under the default configuration, reference trailers fold alias
action names into the canonical one.  First conjunct (all messages): no
key of a parsed record's `references` is ever an alias spelling — every
key has been folded through the alias table.  Second conjunct: a message
carrying both `Fix: <x>` and `Fixed: <y>` trailers yields exactly
`references["Fixes"] = {x.strip(), y.strip()}` — both ids accumulate
under the single canonical key, trimmed of surrounding whitespace, and
no `"Fix"`/`"Fixed"` key exists. -/
theorem references_fold_aliases :
    (∀ (msg : String) (l : LogLine), parse defaultSettings msg = .ok l →
      ∀ k ∈ l.references.map Prod.fst,
        ∀ e ∈ defaultSettings.reference_aliases, k ∉ e.2)
    ∧ (∀ x y : String, '\n' ∉ x.data → ',' ∉ x.data → '\n' ∉ y.data → ',' ∉ y.data →
        pyStrip x ≠ pyStrip y →
        parse defaultSettings ("feat: s\n\nFix: " ++ x ++ "\nFixed: " ++ y ++ "\n.") =
          .ok ⟨"feat: s\n\nFix: " ++ x ++ "\nFixed: " ++ y ++ "\n.", some "s",
            some "feat", none, [("Fixes", [pyStrip x, pyStrip y])], false, []⟩) := by
  constructor
  · intro msg l h k hk e he
    rw [parse_references_eq msg l h] at hk
    cases hg : getReferencesFromMsg defaultSettings.reference_aliases
        (String.mk (bodyChars msg)) with
    | none =>
      rw [hg] at hk
      simp at hk
    | some r =>
      rw [hg] at hk
      have hr : r = buildRefs defaultSettings.reference_aliases
          (refFindall (String.mk (bodyChars msg))) := by
        rw [getReferencesFromMsg] at hg
        by_cases hemp : (refFindall (String.mk (bodyChars msg))).isEmpty
        · rw [if_pos hemp] at hg
          cases hg
        · rw [if_neg hemp] at hg
          cases hg
          rfl
      rw [hr] at hk
      obtain ⟨a, ha⟩ := buildRefs_keys defaultSettings.reference_aliases
        (refFindall (String.mk (bodyChars msg))) k (by simpa using hk)
      rw [ha]
      exact canonicalAction_not_alias a e he
  · intro x y hxnl hxcm hynl hycm hxy
    have hmsg : ("feat: s\n\nFix: " ++ x ++ "\nFixed: " ++ y ++ "\n.").data =
        "feat: s".data ++ '\n' :: ('\n' :: ("Fix: ".data ++ (x.data ++
          ('\n' :: ("Fixed: ".data ++ (y.data ++ ['\n', '.'])))))) := by
      have e1 : "feat: s\n\nFix: ".data =
          "feat: s".data ++ '\n' :: '\n' :: "Fix: ".data := rfl
      have e2 : "\nFixed: ".data = '\n' :: "Fixed: ".data := rfl
      have e3 : "\n.".data = ['\n', '.'] := rfl
      rw [String.data_append, String.data_append, String.data_append,
        String.data_append, e1, e2, e3]
      simp
    have horig : "feat: s\n\nFix: " ++ x ++ "\nFixed: " ++ y ++ "\n." =
        String.mk ("feat: s".data ++ '\n' :: ('\n' :: ("Fix: ".data ++ (x.data ++
          ('\n' :: ("Fixed: ".data ++ (y.data ++ ['\n', '.']))))))) := by
      rw [← hmsg, stringMk_data]
    have htrim : trimChars ("feat: s".data ++ '\n' :: ('\n' :: ("Fix: ".data ++
        (x.data ++ ('\n' :: ("Fixed: ".data ++ (y.data ++ ['\n', '.']))))))) =
        "feat: s".data ++ '\n' :: ('\n' :: ("Fix: ".data ++ (x.data ++
          ('\n' :: ("Fixed: ".data ++ (y.data ++ ['\n', '.'])))))) := by
      have e4 : "feat: s".data ++ '\n' :: ('\n' :: ("Fix: ".data ++ (x.data ++
          ('\n' :: ("Fixed: ".data ++ (y.data ++ ['\n', '.'])))))) =
          'f' :: (("eat: s".data ++ '\n' :: '\n' :: "Fix: ".data ++ x.data
            ++ '\n' :: "Fixed: ".data ++ y.data ++ ['\n']) ++ ['.']) := by
        simp
      rw [e4, trimChars_no_strip 'f' _ '.' (by decide) (by decide)]
    rw [horig, parse_decompose defaultSettings _ _ (by decide) htrim]
    rw [show commitSearch (commitAlts defaultSettings) "feat: s".data =
      some ⟨some "feat", none, false, some "s"⟩ from by decide]
    rw [c7_body_refs x y hxnl hxcm hynl hycm hxy]
    simp [List.lookup]

/-- Witness: the alias-folding theorem applied to `Fix:  F-1 ` and
`Fixed: F-2`. -/
theorem references_fold_aliases_witness :
    ('\n' ∉ " F-1 ".data ∧ ',' ∉ " F-1 ".data ∧ '\n' ∉ "F-2".data
      ∧ ',' ∉ "F-2".data ∧ pyStrip " F-1 " ≠ pyStrip "F-2")
    ∧ parse defaultSettings
        ("feat: s\n\nFix: " ++ " F-1 " ++ "\nFixed: " ++ "F-2" ++ "\n.") =
      .ok ⟨"feat: s\n\nFix: " ++ " F-1 " ++ "\nFixed: " ++ "F-2" ++ "\n.", some "s",
        some "feat", none, [("Fixes", [pyStrip " F-1 ", pyStrip "F-2"])], false, []⟩ :=
  ⟨⟨by decide, by decide, by decide, by decide, by decide⟩,
    references_fold_aliases.2 " F-1 " "F-2" (by decide) (by decide) (by decide)
      (by decide) (by decide)⟩
